import Mathlib

/-!
# SPICE netlist parser: embedding of `parser/parser.go`

A shallow embedding of the per-line parsers of the repository
(`parseValue`, `parseComponent`, `parseCommand`, `parseModel`), of one
iteration and of the loop of `Parser.worker`, and of `Parser.ParseFile` with
its reader and `semanticCheck`, together with theorems about them.

Modelling conventions

* A Go `string` is a `List Char`: the list of code points of a valid UTF-8
  string.  `for _, c := range s` is iteration over that list.
* A Go `float64` is `F64`, the three IEEE-754 binary64 fields.  Decimal
  parsing and multiplication round to nearest, ties to even.
* A Go `error` is the text that `Error()` returns, a `String`; a function
  returning `(T, error)` is an `Except String T`, or an `Outcome T` when it
  indexes or slices and so could panic.
* A Go `map[string]T` is an association list with unique keys, written by
  `GoMap.set`.
* The step of a worker for one line is atomic; a run of the worker pool is the
  sequence of the steps in the order in which they are committed.  The
  goroutine that collects the diagnostics runs beside it: `ParseFile` takes
  the number of diagnostics collected at its return as an argument.
-/

namespace SpiceParser

/-! ## IEEE-754 binary64 -/

/-- The three fields of a binary64 value: sign bit, biased exponent (0..2047)
and fraction (below 2^52). -/
structure F64 where
  sign : Bool
  expo : Nat
  frac : Nat
deriving DecidableEq, Repr

/-- Number of binary digits of `n`, by halving; the first argument bounds the
number of halvings. -/
def bitLenAux : Nat → Nat → Nat
  | 0, _ => 0
  | f + 1, n => if n = 0 then 0 else bitLenAux f (n / 2) + 1

/-- Number of binary digits of `n` (0 for 0). -/
def bitLen (n : Nat) : Nat := bitLenAux n n

/-- Round the positive rational `num / den` to binary64, nearest with ties to
even, gradual underflow.  The result is the magnitude `expo * 2^52 + frac`; a
result of at least `2047 * 2^52` means the value is out of range. -/
def roundMag (num den : Nat) : Nat :=
  if num = 0 then 0 else
  let ln := bitLen num
  let ld := bitLen den
  -- below := num / den < 2 ^ (ln - ld)
  let below : Bool :=
    if ld ≤ ln then decide (num < den * 2 ^ (ln - ld)) else decide (num * 2 ^ (ld - ln) < den)
  -- with 2^e ≤ num/den < 2^(e+1):  52 - e = a - ln
  let a := 52 + ld + (if below then 1 else 0)
  let up := min (a - ln) 1074
  let down := ln - a
  let n := num * 2 ^ up
  let d := den * 2 ^ down
  let q := n / d
  let r := n % d
  let q1 := if d < 2 * r ∨ (2 * r = d ∧ q % 2 = 1) then q + 1 else q
  (1074 + down - up) * 2 ^ 52 + q1

namespace F64

/-- Not-a-number (the quiet NaN the hardware produces). -/
def nan : F64 := ⟨false, 2047, 2 ^ 51⟩

/-- Infinity of the given sign. -/
def inf (neg : Bool) : F64 := ⟨neg, 2047, 0⟩

def isNaN (x : F64) : Bool := x.expo == 2047 && x.frac != 0
def isInf (x : F64) : Bool := x.expo == 2047 && x.frac == 0
def isZero (x : F64) : Bool := x.expo == 0 && x.frac == 0

/-- Integer significand of a finite value: the value is
`sig * 2 ^ (max expo 1 - 1075)`. -/
def sig (x : F64) : Nat := if x.expo = 0 then x.frac else 2 ^ 52 + x.frac

/-- The binary64 with the given sign and rounded magnitude, infinity when the
magnitude is out of range. -/
def ofMag (neg : Bool) (m : Nat) : F64 :=
  if 2047 ≤ m / 2 ^ 52 then inf neg else ⟨neg, m / 2 ^ 52, m % 2 ^ 52⟩

/-- The binary64 nearest to `num / den`, with the given sign. -/
def ofRatio (neg : Bool) (num den : Nat) : F64 := ofMag neg (roundMag num den)

/-- IEEE-754 multiplication, the Go `*` on `float64`. -/
def mul (x y : F64) : F64 :=
  let neg := xor x.sign y.sign
  if x.isNaN || y.isNaN then nan
  else if x.isInf || y.isInf then
    (if x.isZero || y.isZero then nan else inf neg)
  else
    let e := max x.expo 1 + max y.expo 1
    let p := x.sig * y.sig
    if 2150 ≤ e then ofRatio neg (p * 2 ^ (e - 2150)) 1
    else ofRatio neg p (2 ^ (2150 - e))

/-- The rational number a finite binary64 stands for (0 for infinities and
NaN). -/
def toRat (x : F64) : ℚ :=
  if x.expo = 2047 then 0
  else (if x.sign then -1 else 1) * (x.sig : ℚ) * (2 : ℚ) ^ ((max x.expo 1 : ℤ) - 1075)

end F64

/-! ## `strconv.ParseFloat` on the alphabet of `parseValue` -/

/-- The test `'0' <= c && c <= '9'`, on code points. -/
def isDigit (c : Char) : Bool := '0'.toNat ≤ c.toNat && c.toNat ≤ '9'.toNat

/-- The digit loop of `strconv.readFloat` for base 10: at most one `.`, at
least one digit, nothing else.  Returns the digits read as a number and how
many of them follow the point.  (`parseValue` only ever passes digits, `.` and
`-`, so the exponent, hexadecimal, underscore and `inf`/`nan` forms of
`ParseFloat` cannot occur; they are rejected here.) -/
def readDigits : List Char → Bool → Bool → Nat → Nat → Option (Nat × Nat)
  | [], _, sawdigits, m, k => if sawdigits then some (m, k) else none
  | c :: t, sawdot, sawdigits, m, k =>
    if c = '.' then (if sawdot then none else readDigits t true sawdigits m k)
    else if isDigit c then
      readDigits t sawdot true (m * 10 + (c.toNat - '0'.toNat)) (if sawdot then k + 1 else k)
    else none

/-- The optional sign and digit loop of `strconv.readFloat`: sign, digits read
as a number, count of fraction digits; `none` is a syntax error. -/
def readFloat (s : List Char) : Option (Bool × Nat × Nat) :=
  match s with
  | '+' :: t => (readDigits t false false 0 0).map (fun r => (false, r))
  | '-' :: t => (readDigits t false false 0 0).map (fun r => (true, r))
  | _ => (readDigits s false false 0 0).map (fun r => (false, r))

/-- Text of `(*strconv.NumError).Error()` for `ParseFloat`. -/
def numError (s : List Char) (why : String) : String :=
  "strconv.ParseFloat: parsing \"" ++ String.mk s ++ "\": " ++ why

/-- `strconv.ParseFloat(s, 64)`: the nearest binary64 to the decimal, a syntax
error, or a range error when the nearest value is not finite. -/
def parseFloat (s : List Char) : Except String F64 :=
  match readFloat s with
  | none => .error (numError s "invalid syntax")
  | some (neg, m, k) =>
    let mag := roundMag m (10 ^ k)
    if 2047 ≤ mag / 2 ^ 52 then .error (numError s "value out of range")
    else .ok ⟨neg, mag / 2 ^ 52, mag % 2 ^ 52⟩

/-! ## `parseValue` -/

/-- The characters the scanning loop of `parseValue` copies to `numPart`. -/
def isNumChar (c : Char) : Bool := isDigit c || c = '.' || c = '-'

/-- The scanning loop of `parseValue`: `numPart` and `unitChar`.  `unitChar`
is `byte(c)` of the first other character, the code point modulo 256, and 0
when the loop ran to the end. -/
def scanValue : List Char → List Char × Nat
  | [] => ([], 0)
  | c :: t =>
    if isNumChar c then ((c :: (scanValue t).1), (scanValue t).2)
    else ([], c.toNat % 256)

/-- The multiplier table `unitMap` of `parseValue`, keyed by byte. -/
def unitMap (b : Nat) : Option F64 :=
  if b = 'T'.toNat then some (F64.ofRatio false (10 ^ 12) 1)
  else if b = 'G'.toNat then some (F64.ofRatio false (10 ^ 9) 1)
  else if b = 'M'.toNat then some (F64.ofRatio false (10 ^ 6) 1)
  else if b = 'K'.toNat then some (F64.ofRatio false (10 ^ 3) 1)
  else if b = 'm'.toNat then some (F64.ofRatio false 1 (10 ^ 3))
  else if b = 'u'.toNat then some (F64.ofRatio false 1 (10 ^ 6))
  else if b = 'n'.toNat then some (F64.ofRatio false 1 (10 ^ 9))
  else if b = 'p'.toNat then some (F64.ofRatio false 1 (10 ^ 12))
  else none

/-- The function `parseValue` of `parser.go`. -/
def parseValue (s : List Char) : Except String F64 :=
  let numPart := (scanValue s).1
  let unitChar := (scanValue s).2
  match parseFloat numPart with
  | .error e => .error e
  | .ok val =>
    if unitChar ≠ 0 then
      match unitMap unitChar with
      | none => .error ("unknown unit: " ++ String.singleton (Char.ofNat unitChar))
      | some multiplier => .ok (F64.mul val multiplier)
    else .ok val


/-! ## Outcomes, maps and the `strings`/`strconv` helpers -/

/-- Outcome of a Go call that returns `(T, error)`: a value, an error with
its text, or a run-time panic (index or slice out of range, send on a closed
channel). -/
inductive Outcome (α : Type) where
  | ok : α → Outcome α
  | error : String → Outcome α
  | panic : Outcome α
deriving DecidableEq, Repr

/-- The indexing `l[i]` of a Go slice: a panic when out of range. -/
def Outcome.index {α : Type} (l : List α) (i : Nat) : Outcome α :=
  match l.get? i with
  | some a => .ok a
  | none => .panic

/-- Sequencing of outcomes: errors and panics propagate. -/
def Outcome.bind {α β : Type} (x : Outcome α) (f : α → Outcome β) : Outcome β :=
  match x with
  | .ok a => f a
  | .error e => .error e
  | .panic => .panic

/-- The assignment `m[k] = v` of a Go map: the binding of `k` is replaced, or
added when there is none. -/
def GoMap.set {α : Type} (m : List (List Char × α)) (k : List Char) (v : α) :
    List (List Char × α) :=
  match m with
  | [] => [(k, v)]
  | (k1, v1) :: t => if k1 = k then (k, v) :: t else (k1, v1) :: GoMap.set t k v

/-- The lookup `m[k]` of a Go map. -/
def GoMap.get {α : Type} (m : List (List Char × α)) (k : List Char) : Option α :=
  match m with
  | [] => none
  | (k1, v1) :: t => if k1 = k then some v1 else GoMap.get t k

/-- The predicate `unicode.IsSpace`: the code points with the Unicode
White_Space property. -/
def isSpace (c : Char) : Bool :=
  let n := c.toNat
  (9 ≤ n && n ≤ 13) || n = 0x20 || n = 0x85 || n = 0xA0 || n = 0x1680 ||
  (0x2000 ≤ n && n ≤ 0x200A) || n = 0x2028 || n = 0x2029 || n = 0x202F ||
  n = 0x205F || n = 0x3000

/-- The function `strings.TrimSpace`. -/
def trimSpace (s : List Char) : List Char :=
  ((s.dropWhile isSpace).reverse.dropWhile isSpace).reverse

/-- Split a string around the maximal runs of characters satisfying `sp`;
with `isSpace` this is `strings.Fields`. -/
def fieldsBy (sp : Char → Bool) : List Char → List (List Char)
  | [] => []
  | c :: t =>
    if sp c then fieldsBy sp t
    else
      match t with
      | [] => [[c]]
      | d :: _ =>
        if sp d then [c] :: fieldsBy sp t
        else
          match fieldsBy sp t with
          | w :: ws => (c :: w) :: ws
          | [] => [[c]]

/-- The function `strings.Fields`. -/
def fields (s : List Char) : List (List Char) := fieldsBy isSpace s

/-- The function `strings.HasPrefix`. -/
def hasPrefix (s p : List Char) : Bool := p.isPrefixOf s

/-- The function `strings.TrimPrefix`. -/
def trimPrefix (s p : List Char) : List Char :=
  if p.isPrefixOf s then s.drop p.length else s

/-- Cut a string at the first occurrence of `sep`. -/
def cut (sep : Char) : List Char → Option (List Char × List Char)
  | [] => none
  | c :: t =>
    if c = sep then some ([], t)
    else
      match cut sep t with
      | some (a, b) => some (c :: a, b)
      | none => none

/-- The call `strings.SplitN(s, sep, 2)` for a one-character separator. -/
def splitN2 (sep : Char) (s : List Char) : List (List Char) :=
  match cut sep s with
  | some (a, b) => [a, b]
  | none => [s]

/-- The call `strings.Split(s, sep)` for a one-character separator. -/
def split (sep : Char) : List Char → List (List Char)
  | [] => [[]]
  | c :: t =>
    if c = sep then [] :: split sep t
    else
      match split sep t with
      | w :: ws => (c :: w) :: ws
      | [] => [[c]]

/-- The function `unicode.ToUpper`.  Its case tables for the code points
above U+007F are the parameter `up`; ASCII is mapped as the function does. -/
def toUpperRune (up : Char → Char) (c : Char) : Char :=
  if c.toNat < 128 then
    (if 'a'.toNat ≤ c.toNat ∧ c.toNat ≤ 'z'.toNat then Char.ofNat (c.toNat - 32) else c)
  else up c

/-- The function `strings.ToUpper` (on valid UTF-8). -/
def toUpper (up : Char → Char) (s : List Char) : List Char := s.map (toUpperRune up)

/-- The expression `strings.ToUpper(s[0:1])`, upper-casing the first byte of
`s`.  The first byte of an ASCII character is the character; the first byte of
any other character is not valid UTF-8 on its own and `ToUpper` maps it to
U+FFFD.  Slicing an empty string at `[0:1]` panics. -/
def upperFirstByte (s : List Char) : Outcome (List Char) :=
  match s with
  | [] => .panic
  | c :: _ =>
    if c.toNat < 128 then .ok [toUpperRune id c] else .ok [Char.ofNat 0xFFFD]

/-- The function `strconv.Atoi` with its error dropped, as the worker calls
it (`int` is 64 bits): the number for an optionally signed run of decimal
digits, clamped to the `int` range; 0 for anything else. -/
def atoi (s : List Char) : Int :=
  let neg : Bool := match s with
    | '-' :: _ => true
    | _ => false
  let ds : List Char := match s with
    | '-' :: t => t
    | '+' :: t => t
    | _ => s
  if ds = [] ∨ ¬ ds.all isDigit then 0
  else
    let n : Nat := ds.foldl (fun a c => a * 10 + (c.toNat - '0'.toNat)) 0
    if neg then (if 2 ^ 63 < n then -(2 ^ 63 : Int) else -(n : Int))
    else (if 2 ^ 63 ≤ n then (2 ^ 63 - 1 : Int) else (n : Int))

/-! ## The fragment of `regexp` syntax that the two patterns use

Go's `regexp` returns the leftmost match and, among those, the one a
backtracking search finds first.  `Re.run` is that backtracking search, in
continuation-passing style: `k` is what remains to be matched. -/

/-- Regular expressions: a character class, its greedy repetitions `*` and
`+`, concatenation, the greedy `?`, a numbered capture group, `^` and `$`
(without the `m` flag: beginning and end of the text). -/
inductive Re where
  | cls (p : Char → Bool)
  | star (p : Char → Bool)
  | plus (p : Char → Bool)
  | seq (a b : Re)
  | opt (a : Re)
  | cap (i : Nat) (a : Re)
  | bot
  | eot

/-- Position of a match in progress: the text still to be read and the
captures made so far (empty for a group that has not taken part). -/
structure MState where
  rest : List Char
  caps : List (List Char)

/-- Greedy repetition of a class: take as many characters as possible, give
them back one at a time while the continuation fails. -/
def starRun {ρ : Type} (p : Char → Bool) (caps : List (List Char)) (k : MState → Option ρ) :
    List Char → Option ρ
  | [] => k ⟨[], caps⟩
  | c :: t =>
    if p c then
      match starRun p caps k t with
      | some r => some r
      | none => k ⟨c :: t, caps⟩
    else k ⟨c :: t, caps⟩

/-- Backtracking match of `r` at state `s` of a search in `text`, then `k`. -/
def Re.run {ρ : Type} (text : List Char) : Re → MState → (MState → Option ρ) → Option ρ
  | .cls p, s, k =>
    match s.rest with
    | c :: t => if p c then k ⟨t, s.caps⟩ else none
    | [] => none
  | .star p, s, k => starRun p s.caps k s.rest
  | .plus p, s, k =>
    match s.rest with
    | c :: t => if p c then starRun p s.caps k t else none
    | [] => none
  | .seq a b, s, k => a.run text s (fun s1 => b.run text s1 k)
  | .opt a, s, k =>
    match a.run text s k with
    | some r => some r
    | none => k s
  | .cap i a, s, k =>
    a.run text s (fun s1 =>
      k ⟨s1.rest, s1.caps.set i (s.rest.take (s.rest.length - s1.rest.length))⟩)
  | .bot, s, k => if s.rest.length = text.length then k s else none
  | .eot, s, k => if s.rest = [] then k s else none

/-- Match of `r` starting exactly at the suffix `rest` of `text`: the
submatches, entry 0 being the whole match. -/
def Re.matchAt (r : Re) (groups : Nat) (text rest : List Char) : Option (List (List Char)) :=
  r.run text ⟨rest, List.replicate (groups + 1) []⟩
    (fun s => some (s.caps.set 0 (rest.take (rest.length - s.rest.length))))

/-- Leftmost match: try every start position from the left. -/
def Re.search (r : Re) (groups : Nat) (text : List Char) : List Char → Option (List (List Char))
  | [] => r.matchAt groups text []
  | c :: t =>
    match r.matchAt groups text (c :: t) with
    | some m => some m
    | none => r.search groups text t

/-- The method `(*Regexp).FindStringSubmatch`; `groups` is the number of
capture groups of the pattern, `none` is the nil slice. -/
def Re.findStringSubmatch (r : Re) (groups : Nat) (text : List Char) :
    Option (List (List Char)) :=
  r.search groups text text

/-! ### Character classes of the patterns -/

/-- The class `\s` of RE2: `[\t\n\f\r ]`. -/
def reSpace (c : Char) : Bool :=
  c = '\t' || c = '\n' || c = Char.ofNat 12 || c = '\r' || c = ' '

/-- The class `\S`. -/
def reNonSpace (c : Char) : Bool := !reSpace c

/-- The class `.` (without the `s` flag): anything but a newline. -/
def reAny (c : Char) : Bool := !(c = '\n')

/-- The letters `A-Z` and `a-z`. -/
def isAsciiLetter (c : Char) : Bool :=
  ('A'.toNat ≤ c.toNat && c.toNat ≤ 'Z'.toNat) || ('a'.toNat ≤ c.toNat && c.toNat ≤ 'z'.toNat)

/-- The class `[A-Z]` under `(?i)`: the letters of both cases and the two
other code points whose simple case folding reaches a letter, U+017F (long s)
and U+212A (Kelvin sign). -/
def reLetterFold (c : Char) : Bool :=
  isAsciiLetter c || c = Char.ofNat 0x17F || c = Char.ofNat 0x212A

/-- The class `\w` under `(?i)`: `[0-9A-Za-z_]` closed under case folding. -/
def reWordFold (c : Char) : Bool := isDigit c || c = '_' || reLetterFold c

/-- A literal ASCII letter under `(?i)`: the letter in either case (given in
lower case; none of `m`, `o`, `d`, `e`, `l` has another folding). -/
def reLetterCI (l : Char) (c : Char) : Bool := c = l || c = Char.ofNat (l.toNat - 32)

/-- The pattern of `parseComponent`:
`(?i)^([A-Z]\w*)\s+(\S+)\s+(\S+)(?:\s+(\S+))?(?:\s+(\S+))?(?:\s+(.*))?$`. -/
def componentRe : Re :=
  .seq .bot <|
  .seq (.cap 1 (.seq (.cls reLetterFold) (.star reWordFold))) <|
  .seq (.plus reSpace) <| .seq (.cap 2 (.plus reNonSpace)) <|
  .seq (.plus reSpace) <| .seq (.cap 3 (.plus reNonSpace)) <|
  .seq (.opt (.seq (.plus reSpace) (.cap 4 (.plus reNonSpace)))) <|
  .seq (.opt (.seq (.plus reSpace) (.cap 5 (.plus reNonSpace)))) <|
  .seq (.opt (.seq (.plus reSpace) (.cap 6 (.star reAny)))) .eot

/-- The pattern of `parseModel`: `(?i)\.model\s+(\w+)\s+(\w+)\s*$(.*)$`. -/
def modelRe : Re :=
  .seq (.cls (fun c => c = '.')) <|
  .seq (.cls (reLetterCI 'm')) <| .seq (.cls (reLetterCI 'o')) <|
  .seq (.cls (reLetterCI 'd')) <| .seq (.cls (reLetterCI 'e')) <|
  .seq (.cls (reLetterCI 'l')) <|
  .seq (.plus reSpace) <| .seq (.cap 1 (.plus reWordFold)) <|
  .seq (.plus reSpace) <| .seq (.cap 2 (.plus reWordFold)) <|
  .seq (.star reSpace) <| .seq .eot <| .seq (.cap 3 (.star reAny)) .eot

/-! ## The data model (`models/*.go`) -/

/-- The struct `models.Component`. -/
structure Component where
  LineNum : Int
  Typ : List Char
  Nodes : List (List Char)
  Model : List Char
  Params : List (List Char × F64)
deriving DecidableEq, Repr

/-- The struct `models.Model`. -/
structure Model where
  Name : List Char
  Typ : List Char
  Params : List (List Char × F64)
deriving DecidableEq, Repr

/-- Modelled from the spec: the struct `models.Command`, whose declaration is
not among the sources.  "Command: type tag (free-form uppercased string),
mapping from option name to raw string value"; `parseCommand` fills the fields
`Type` and `Options` (a `map[string]string`). -/
structure Command where
  Typ : List Char
  Options : List (List Char × List Char)
deriving DecidableEq, Repr

/-- The struct `models.Netlist`. -/
structure Netlist where
  Title : List Char
  Components : List Component
  Commands : List Command
  Models : List (List Char × Model)
deriving DecidableEq, Repr

/-- The struct `models.ParseError`. -/
structure ParseError where
  LineNum : Int
  Message : String
  Severity : String
deriving DecidableEq, Repr

/-! ## The per-line parsers -/

/-- The function `parseComponent` of `parser.go`. -/
def parseComponent (line : List Char) : Outcome Component :=
  match componentRe.findStringSubmatch 6 line with
  | none => .error "invalid component syntax"
  | some found =>
    (Outcome.index found 1).bind fun m1 =>
    (upperFirstByte m1).bind fun compType =>
    if compType = ['R'] ∨ compType = ['C'] ∨ compType = ['L'] then
      (Outcome.index found 2).bind fun m2 =>
      (Outcome.index found 3).bind fun m3 =>
      (Outcome.index found 4).bind fun m4 =>
      match parseValue m4 with
      | .ok val => .ok ⟨0, compType, [m2, m3], [], GoMap.set [] "value".toList val⟩
      | .error err => .error err
    else if compType = ['M'] then
      (Outcome.index found 2).bind fun m2 =>
      (Outcome.index found 3).bind fun m3 =>
      (Outcome.index found 4).bind fun m4 =>
      (Outcome.index found 5).bind fun m5 =>
      (Outcome.index found 6).bind fun m6 =>
      .ok ⟨0, compType, [m2, m3, m4, m5], m6, []⟩
    else .error ("unsupported component type: " ++ String.mk compType)

/-- The loop of `parseCommand` over `parts[1:]`. -/
def commandOptions :
    List (List Char) → List (List Char × List Char) → Outcome (List (List Char × List Char))
  | [], opts => .ok opts
  | opt :: rest, opts =>
    if '=' ∈ opt then
      (Outcome.index (splitN2 '=' opt) 0).bind fun k =>
      (Outcome.index (splitN2 '=' opt) 1).bind fun v =>
      commandOptions rest (GoMap.set opts k v)
    else commandOptions rest opts

/-- The function `parseCommand` of `parser.go`; `up` is the upper-case
mapping of the Unicode tables outside ASCII. -/
def parseCommand (up : Char → Char) (line : List Char) : Outcome Command :=
  let parts := fields (trimPrefix line ['.'])
  match parts with
  | [] => .error "empty command"
  | p0 :: rest =>
    let typ := toUpper up p0
    if typ = "TRAN".toList ∨ typ = "AC".toList ∨ typ = "DC".toList then
      (commandOptions rest []).bind fun opts => .ok ⟨typ, opts⟩
    else .ok ⟨typ, []⟩

/-- The loop of `parseModel` over the fields of `matches[3]`. -/
def modelParams :
    List (List Char) → List (List Char × F64) → Outcome (List (List Char × F64))
  | [], ps => .ok ps
  | param :: rest, ps =>
    if '=' ∈ param then
      (Outcome.index (split '=' param) 1).bind fun v =>
      match parseValue v with
      | .ok val =>
        (Outcome.index (split '=' param) 0).bind fun k => modelParams rest (GoMap.set ps k val)
      | .error _ => modelParams rest ps
    else modelParams rest ps

/-- The function `parseModel` of `parser.go`. -/
def parseModel (line : List Char) : Outcome Model :=
  match modelRe.findStringSubmatch 3 line with
  | none => .error "invalid model syntax"
  | some found =>
    (Outcome.index found 1).bind fun m1 =>
    (Outcome.index found 2).bind fun m2 =>
    (Outcome.index found 3).bind fun m3 =>
    (modelParams (fields m3) []).bind fun ps => .ok ⟨m1, m2, ps⟩

/-! ## One iteration of `Parser.worker` -/

/-- The fields of `Parser` that the worker reads and writes: the netlist and
the diagnostics sent on `errorChan`, oldest first. -/
structure Parser where
  Netlist : Netlist
  errorChan : List ParseError
deriving DecidableEq, Repr

/-- The value `NewParser()` returns. -/
def NewParser : Parser := ⟨⟨[], [], [], []⟩, []⟩

/-- The send `p.errorChan <- ParseError{lineNum, msg, "ERROR"}`. -/
def Parser.report (p : Parser) (lineNum : Int) (msg : String) : Parser :=
  { p with errorChan := p.errorChan ++ [⟨lineNum, msg, "ERROR"⟩] }

/-- The body of the `for line := range lines` loop of `Parser.worker`, run
without interference, on one element of the `lines` channel. -/
def workerStep (up : Char → Char) (p : Parser) (line : List Char) : Outcome Parser :=
  let parts := splitN2 '|' line
  (Outcome.index parts 0).bind fun p0 =>
  let lineNum := atoi p0
  (Outcome.index parts 1).bind fun p1 =>
  let content := trimSpace p1
  if content = [] ∨ hasPrefix content ['*'] then
    if hasPrefix content ['*'] ∧ p.Netlist.Title = [] then
      .ok { p with Netlist := { p.Netlist with Title := trimPrefix content ['*', ' '] } }
    else .ok p
  else if hasPrefix content ".model".toList then
    match parseModel content with
    | .error err => .ok (p.report lineNum err)
    | .panic => .panic
    | .ok model =>
      .ok { p with Netlist := { p.Netlist with Models := GoMap.set p.Netlist.Models model.Name model } }
  else if hasPrefix content ['.'] then
    match parseCommand up content with
    | .error err => .ok (p.report lineNum err)
    | .panic => .panic
    | .ok cmd =>
      .ok { p with Netlist := { p.Netlist with Commands := p.Netlist.Commands ++ [cmd] } }
  else
    match parseComponent content with
    | .error err => .ok (p.report lineNum err)
    | .panic => .panic
    | .ok comp =>
      .ok { p with Netlist := { p.Netlist with
              Components := p.Netlist.Components ++ [{ comp with LineNum := lineNum }] } }

deriving instance DecidableEq for Except

/-- Declarative reading of the regular expressions: `r.Matches text s s1`
says that `r` can take the search from state `s` to state `s1`, whatever the
order in which a backtracking search would try it. -/
def Re.Matches (text : List Char) : Re → MState → MState → Prop
  | .cls p, s, s1 => ∃ c, p c = true ∧ s.rest = c :: s1.rest ∧ s1.caps = s.caps
  | .star p, s, s1 => ∃ pre, (∀ x ∈ pre, p x = true) ∧ s.rest = pre ++ s1.rest ∧ s1.caps = s.caps
  | .plus p, s, s1 =>
    ∃ c pre, p c = true ∧ (∀ x ∈ pre, p x = true) ∧ s.rest = c :: (pre ++ s1.rest) ∧
      s1.caps = s.caps
  | .seq a b, s, s1 => ∃ s2, a.Matches text s s2 ∧ b.Matches text s2 s1
  | .opt a, s, s1 => a.Matches text s s1 ∨ s1 = s
  | .cap i a, s, s1 =>
    ∃ s2, a.Matches text s s2 ∧
      s1 = ⟨s2.rest, s2.caps.set i (s.rest.take (s.rest.length - s2.rest.length))⟩
  | .bot, s, s1 => s.rest.length = text.length ∧ s1 = s
  | .eot, s, s1 => s.rest = [] ∧ s1 = s

/-! ## Vocabulary of the statements -/

/-- A non-empty run of characters of the class `\s`. -/
def Spaces (l : List Char) : Prop := l ≠ [] ∧ ∀ x ∈ l, reSpace x = true

/-- A non-empty run of characters of the class `\S`. -/
def Token (l : List Char) : Prop := l ≠ [] ∧ ∀ x ∈ l, reNonSpace x = true

/-- The string is empty or begins with a character of the class `\s`. -/
def SpaceStart (l : List Char) : Prop := l = [] ∨ ∃ c t, l = c :: t ∧ reSpace c = true

/-- The option binding that the tokens after the keyword give to the key `k`,
in the words of the specification: a token that contains `=` binds the text
before its first `=` to the text after it, and the last such token wins. -/
def lastBinding : List (List Char) → List Char → Option (List Char)
  | [], _ => none
  | tok :: rest, k =>
    match lastBinding rest k with
    | some v => some v
    | none =>
      match cut '=' tok with
      | some (a, b) => if a = k then some b else none
      | none => none

/-! ## `Parser.ParseFile`: the reader, the worker loop and the semantic check -/

/-- The decimal digits of `n` in front of `acc`, least significant digit
first computed; the first argument bounds the number of digits. -/
def decDigits : Nat → Nat → List Char → List Char
  | 0, _, acc => acc
  | f + 1, n, acc =>
    if n / 10 = 0 then Char.ofNat ('0'.toNat + n % 10) :: acc
    else decDigits f (n / 10) (Char.ofNat ('0'.toNat + n % 10) :: acc)

/-- The verb `%d` of `fmt.Sprintf` on a non-negative `int`. -/
def itoa (n : Nat) : List Char := decDigits (n + 1) n []

/-- The reader's `fmt.Sprintf("%d|%s", lineNum, scanner.Text())`. -/
def encodeLine (lineNum : Nat) (text : List Char) : List Char :=
  itoa lineNum ++ '|' :: text

/-- The reading loop of `ParseFile`: `lineNum` starts at 0 and is incremented
before each send, so the lines are numbered from `lineNum + 1`. -/
def readerLines : Nat → List (List Char) → List (List Char)
  | _, [] => []
  | lineNum, text :: rest => encodeLine (lineNum + 1) text :: readerLines (lineNum + 1) rest

/-- The loop `for line := range lines` of one worker that receives the given
elements in this order. -/
def workerRun (up : Char → Char) : Parser → List (List Char) → Outcome Parser
  | p, [] => .ok p
  | p, line :: rest => (workerStep up p line).bind fun p1 => workerRun up p1 rest

/-- The send `p.errorChan <- e`: a panic when the channel is closed. -/
def Parser.send (closed : Bool) (p : Parser) (e : ParseError) : Outcome Parser :=
  if closed then .panic else .ok { p with errorChan := p.errorChan ++ [e] }

/-- The loop of `semanticCheck` over the components. -/
def semanticCheckLoop (closed : Bool) : List Component → Parser → Outcome Parser
  | [], p => .ok p
  | comp :: rest, p =>
    if comp.Model ≠ [] then
      match GoMap.get p.Netlist.Models comp.Model with
      | some _ => semanticCheckLoop closed rest p
      | none =>
        (p.send closed ⟨comp.LineNum, "undefined model: " ++ String.mk comp.Model, "ERROR"⟩).bind
          fun p1 => semanticCheckLoop closed rest p1
    else semanticCheckLoop closed rest p

/-- The method `Parser.semanticCheck`; `closed` says whether `errorChan` has
been closed when it runs. -/
def Parser.semanticCheck (closed : Bool) (p : Parser) : Outcome Parser :=
  semanticCheckLoop closed p.Netlist.Components p

/-- What `ParseFile` leaves in the `Parser` when it returns: the netlist and
`Errors`. -/
structure ParseResult where
  Netlist : Netlist
  Errors : List ParseError
deriving DecidableEq, Repr

/-- The method `Parser.ParseFile` on the lines of the file, in the schedule
in which the lines are processed in source order (one worker).
`close(p.errorChan)` comes before `p.semanticCheck()`.

The goroutine that moves the diagnostics from `errorChan` to `p.Errors` is
started by `ParseFile` and never waited for: when `ParseFile` returns,
`Errors` holds the diagnostics that goroutine has appended so far, in the
order sent.  `drained` is how many it has appended; since the channel buffers
100 values and the goroutine holds at most one more, all but the last 101
diagnostics are appended in any case. -/
def ParseFile (up : Char → Char) (drained : Nat) (texts : List (List Char)) :
    Outcome ParseResult :=
  (workerRun up NewParser (readerLines 0 texts)).bind fun p1 =>
  (p1.semanticCheck true).bind fun p2 =>
  .ok ⟨p2.Netlist, p2.errorChan.take (max drained (p2.errorChan.length - 101))⟩

/-! ## What one line contributes -/

/-- The contribution of one element of the `lines` channel to the shared
state, as the worker computes it before it touches that state. -/
inductive LineEffect where
  | skip
  | title (t : List Char)
  | model (m : Model)
  | command (c : Command)
  | component (c : Component)
  | diagnostic (e : ParseError)
deriving DecidableEq, Repr

/-- The contribution of a line: a blank line contributes nothing, a comment
line a candidate title, the other lines the record of their parser or the
diagnostic of its error. -/
def lineEffect (up : Char → Char) (line : List Char) : Outcome LineEffect :=
  (Outcome.index (splitN2 '|' line) 0).bind fun p0 =>
  (Outcome.index (splitN2 '|' line) 1).bind fun p1 =>
  if trimSpace p1 = [] then .ok .skip
  else if hasPrefix (trimSpace p1) ['*'] then
    .ok (.title (trimPrefix (trimSpace p1) ['*', ' ']))
  else if hasPrefix (trimSpace p1) ".model".toList then
    match parseModel (trimSpace p1) with
    | .error err => .ok (.diagnostic ⟨atoi p0, err, "ERROR"⟩)
    | .panic => .panic
    | .ok m => .ok (.model m)
  else if hasPrefix (trimSpace p1) ['.'] then
    match parseCommand up (trimSpace p1) with
    | .error err => .ok (.diagnostic ⟨atoi p0, err, "ERROR"⟩)
    | .panic => .panic
    | .ok c => .ok (.command c)
  else
    match parseComponent (trimSpace p1) with
    | .error err => .ok (.diagnostic ⟨atoi p0, err, "ERROR"⟩)
    | .panic => .panic
    | .ok c => .ok (.component { c with LineNum := atoi p0 })

/-- The update of the shared state by a contribution. -/
def Parser.apply (p : Parser) : LineEffect → Parser
  | .skip => p
  | .title t => if p.Netlist.Title = [] then { p with Netlist := { p.Netlist with Title := t } } else p
  | .model m => { p with Netlist := { p.Netlist with Models := GoMap.set p.Netlist.Models m.Name m } }
  | .command c => { p with Netlist := { p.Netlist with Commands := p.Netlist.Commands ++ [c] } }
  | .component c =>
    { p with Netlist := { p.Netlist with Components := p.Netlist.Components ++ [c] } }
  | .diagnostic e => { p with errorChan := p.errorChan ++ [e] }

/-- The contribution of a line whose step completes (`skip` stands in for a
step that does not). -/
def lineEffectD (up : Char → Char) (line : List Char) : LineEffect :=
  match lineEffect up line with
  | .ok e => e
  | .error _ => .skip
  | .panic => .skip

/-- The Component that a contribution appends, if any. -/
def LineEffect.toComponent : LineEffect → Option Component
  | .component c => some c
  | _ => none

/-- The Command that a contribution appends, if any. -/
def LineEffect.toCommand : LineEffect → Option Command
  | .command c => some c
  | _ => none

/-- The diagnostic that a contribution sends, if any. -/
def LineEffect.toDiagnostic : LineEffect → Option ParseError
  | .diagnostic e => some e
  | _ => none

/-- The Model that a contribution inserts, if any. -/
def LineEffect.toModel : LineEffect → Option Model
  | .model m => some m
  | _ => none

/-- The names of the models that the model cards among the lines define, one
entry for each card. -/
def modelNames (up : Char → Char) (lines : List (List Char)) : List (List Char) :=
  ((lines.map (lineEffectD up)).filterMap LineEffect.toModel).map (fun m => m.Name)

/-! ## Theorems

### The backtracking search against the declarative reading -/

theorem starRun_sound {ρ : Type} (p : Char → Bool) (caps : List (List Char))
    (k : MState → Option ρ) (l : List Char) (x : ρ) (h : starRun p caps k l = some x) :
    ∃ pre post, (∀ c ∈ pre, p c = true) ∧ l = pre ++ post ∧ k ⟨post, caps⟩ = some x := by
  induction l with
  | nil => exact ⟨[], [], by simp, rfl, by simpa [starRun] using h⟩
  | cons c t ih =>
    unfold starRun at h
    by_cases hpc : p c = true
    · rw [if_pos hpc] at h
      cases hrec : starRun p caps k t with
      | some r =>
        rw [hrec] at h
        obtain ⟨pre, post, h1, h2, h3⟩ := ih (by rw [hrec, ← h])
        refine ⟨c :: pre, post, ?_, by rw [h2]; rfl, h3⟩
        intro d hd
        rcases List.mem_cons.1 hd with rfl | hd
        · exact hpc
        · exact h1 d hd
      | none =>
        rw [hrec] at h
        exact ⟨[], c :: t, by simp, rfl, h⟩
    · rw [if_neg hpc] at h
      exact ⟨[], c :: t, by simp, rfl, h⟩

theorem starRun_complete {ρ : Type} (p : Char → Bool) (caps : List (List Char))
    (k : MState → Option ρ) (pre post : List Char) (x : ρ) (hpre : ∀ c ∈ pre, p c = true)
    (hk : k ⟨post, caps⟩ = some x) : ∃ y, starRun p caps k (pre ++ post) = some y := by
  induction pre with
  | nil =>
    cases post with
    | nil => exact ⟨x, by simpa [starRun] using hk⟩
    | cons c t =>
      simp only [List.nil_append]
      unfold starRun
      by_cases hpc : p c = true
      · rw [if_pos hpc]
        cases hrec : starRun p caps k t with
        | some r => exact ⟨r, rfl⟩
        | none => exact ⟨x, hk⟩
      · rw [if_neg hpc]
        exact ⟨x, hk⟩
  | cons c t ih =>
    obtain ⟨y, hy⟩ := ih (fun d hd => hpre d (List.mem_cons_of_mem _ hd))
    have hpc : p c = true := hpre c (List.mem_cons_self _ _)
    refine ⟨y, ?_⟩
    simp only [List.cons_append]
    unfold starRun
    rw [if_pos hpc, hy]

/-- Whatever the search returns was reached through a declarative match. -/
theorem Re.run_sound {ρ : Type} (text : List Char) (r : Re) :
    ∀ (s : MState) (k : MState → Option ρ) (x : ρ), r.run text s k = some x →
      ∃ s1, r.Matches text s s1 ∧ k s1 = some x := by
  induction r with
  | cls p =>
    intro s k x h
    obtain ⟨rest, caps⟩ := s
    cases rest with
    | nil => simp [Re.run] at h
    | cons c t =>
      by_cases hpc : p c = true
      · simp only [Re.run, if_pos hpc] at h
        exact ⟨⟨t, caps⟩, ⟨c, hpc, rfl, rfl⟩, h⟩
      · simp [Re.run, hpc] at h
  | star p =>
    intro s k x h
    obtain ⟨pre, post, h1, h2, h3⟩ := starRun_sound p s.caps k s.rest x h
    exact ⟨⟨post, s.caps⟩, ⟨pre, h1, h2, rfl⟩, h3⟩
  | plus p =>
    intro s k x h
    obtain ⟨rest, caps⟩ := s
    cases rest with
    | nil => simp [Re.run] at h
    | cons c t =>
      by_cases hpc : p c = true
      · simp only [Re.run, if_pos hpc] at h
        obtain ⟨pre, post, h1, h2, h3⟩ := starRun_sound p caps k t x h
        exact ⟨⟨post, caps⟩, ⟨c, pre, hpc, h1, by simp [h2], rfl⟩, h3⟩
      · simp [Re.run, hpc] at h
  | seq a b iha ihb =>
    intro s k x h
    simp only [Re.run] at h
    obtain ⟨s2, hA, h2⟩ := iha s _ x h
    obtain ⟨s1, hB, h1⟩ := ihb s2 k x h2
    exact ⟨s1, ⟨s2, hA, hB⟩, h1⟩
  | opt a iha =>
    intro s k x h
    simp only [Re.run] at h
    cases hrec : a.run text s k with
    | some r =>
      rw [hrec] at h
      obtain ⟨s1, hA, h1⟩ := iha s k r hrec
      exact ⟨s1, Or.inl hA, by rw [h1]; exact h⟩
    | none =>
      rw [hrec] at h
      exact ⟨s, Or.inr rfl, h⟩
  | cap i a iha =>
    intro s k x h
    simp only [Re.run] at h
    obtain ⟨s2, hA, h2⟩ := iha s _ x h
    exact ⟨_, ⟨s2, hA, rfl⟩, h2⟩
  | bot =>
    intro s k x h
    by_cases hl : s.rest.length = text.length
    · simp only [Re.run, if_pos hl] at h
      exact ⟨s, ⟨hl, rfl⟩, h⟩
    · simp [Re.run, hl] at h
  | eot =>
    intro s k x h
    by_cases hl : s.rest = []
    · simp only [Re.run, if_pos hl] at h
      exact ⟨s, ⟨hl, rfl⟩, h⟩
    · simp [Re.run, hl] at h

/-- When a declarative match exists that the continuation accepts, the
search returns a result. -/
theorem Re.run_complete {ρ : Type} (text : List Char) (r : Re) :
    ∀ (s s1 : MState) (k : MState → Option ρ) (x : ρ), r.Matches text s s1 → k s1 = some x →
      ∃ y, r.run text s k = some y := by
  induction r with
  | cls p =>
    intro s s1 k x hm hk
    obtain ⟨c, hpc, hrest, hcaps⟩ := hm
    obtain ⟨rest, caps⟩ := s
    obtain ⟨rest1, caps1⟩ := s1
    simp only at hrest hcaps
    subst hrest hcaps
    exact ⟨x, by simp only [Re.run, if_pos hpc]; exact hk⟩
  | star p =>
    intro s s1 k x hm hk
    obtain ⟨pre, hpre, hrest, hcaps⟩ := hm
    obtain ⟨rest, caps⟩ := s
    obtain ⟨rest1, caps1⟩ := s1
    simp only at hrest hcaps
    subst hrest hcaps
    exact starRun_complete p caps1 k pre rest1 x hpre hk
  | plus p =>
    intro s s1 k x hm hk
    obtain ⟨c, pre, hpc, hpre, hrest, hcaps⟩ := hm
    obtain ⟨rest, caps⟩ := s
    obtain ⟨rest1, caps1⟩ := s1
    simp only at hrest hcaps
    subst hrest hcaps
    obtain ⟨y, hy⟩ := starRun_complete p caps1 k pre rest1 x hpre hk
    exact ⟨y, by simp only [Re.run, if_pos hpc]; exact hy⟩
  | seq a b iha ihb =>
    intro s s1 k x hm hk
    obtain ⟨s2, hA, hB⟩ := hm
    obtain ⟨y, hy⟩ := ihb s2 s1 k x hB hk
    obtain ⟨z, hz⟩ := iha s s2 (fun t => b.run text t k) y hA hy
    exact ⟨z, by simp only [Re.run]; exact hz⟩
  | opt a iha =>
    intro s s1 k x hm hk
    simp only [Re.run]
    cases hrec : a.run text s k with
    | some r => exact ⟨r, rfl⟩
    | none =>
      rcases hm with hA | rfl
      · obtain ⟨y, hy⟩ := iha s s1 k x hA hk
        rw [hrec] at hy
        exact absurd hy (by simp)
      · exact ⟨x, hk⟩
  | cap i a iha =>
    intro s s1 k x hm hk
    obtain ⟨s2, hA, rfl⟩ := hm
    simp only [Re.run]
    exact iha s s2 _ x hA hk
  | bot =>
    intro s s1 k x hm hk
    obtain ⟨hl, rfl⟩ := hm
    exact ⟨x, by simp only [Re.run, if_pos hl]; exact hk⟩
  | eot =>
    intro s s1 k x hm hk
    obtain ⟨hl, rfl⟩ := hm
    exact ⟨x, by simp only [Re.run, if_pos hl]; exact hk⟩

theorem take_length_sub (a b : List Char) :
    List.take ((a ++ b).length - b.length) (a ++ b) = a := by
  simp

theorem matches_seq (text : List Char) (a b : Re) (s s1 : MState) :
    (Re.seq a b).Matches text s s1 ↔ ∃ s2, a.Matches text s s2 ∧ b.Matches text s2 s1 := Iff.rfl

theorem matches_opt (text : List Char) (a : Re) (s s1 : MState) :
    (Re.opt a).Matches text s s1 ↔ (a.Matches text s s1 ∨ s1 = s) := Iff.rfl

theorem matches_eot (text : List Char) (s s1 : MState) :
    Re.eot.Matches text s s1 ↔ (s.rest = [] ∧ s1 = s) := Iff.rfl

theorem matches_bot (text : List Char) (s s1 : MState) :
    Re.bot.Matches text s s1 ↔ (s.rest.length = text.length ∧ s1 = s) := Iff.rfl

theorem matches_spaces (text : List Char) (rest : List Char) (caps : List (List Char))
    (s1 : MState) :
    (Re.plus reSpace).Matches text ⟨rest, caps⟩ s1 ↔
      ∃ sp, Spaces sp ∧ rest = sp ++ s1.rest ∧ s1.caps = caps := by
  constructor
  · rintro ⟨c, pre, hc, hpre, hrest, hcaps⟩
    refine ⟨c :: pre, ⟨by simp, ?_⟩, by simpa using hrest, hcaps⟩
    intro x hx
    rcases List.mem_cons.1 hx with rfl | hx
    · exact hc
    · exact hpre x hx
  · rintro ⟨sp, ⟨hne, hall⟩, hrest, hcaps⟩
    cases sp with
    | nil => exact absurd rfl hne
    | cons c pre =>
      exact ⟨c, pre, hall c (List.mem_cons_self _ _),
        fun x hx => hall x (List.mem_cons_of_mem _ hx), by simpa using hrest, hcaps⟩

theorem matches_token (text : List Char) (i : Nat) (rest : List Char) (caps : List (List Char))
    (s1 : MState) :
    (Re.cap i (.plus reNonSpace)).Matches text ⟨rest, caps⟩ s1 ↔
      ∃ tok, Token tok ∧ rest = tok ++ s1.rest ∧ s1.caps = caps.set i tok := by
  constructor
  · rintro ⟨s2, ⟨c, pre, hc, hpre, hrest, hcaps⟩, rfl⟩
    simp only at hrest hcaps
    refine ⟨c :: pre, ⟨by simp, ?_⟩, by simpa using hrest, ?_⟩
    · intro x hx
      rcases List.mem_cons.1 hx with rfl | hx
      · exact hc
      · exact hpre x hx
    · simp only [hcaps, hrest]
      congr 1
      have := take_length_sub (c :: pre) s2.rest
      simpa using this
  · rintro ⟨tok, ⟨hne, hall⟩, hrest, hcaps⟩
    cases tok with
    | nil => exact absurd rfl hne
    | cons c pre =>
      obtain ⟨rest1, caps1⟩ := s1
      simp only at hrest hcaps
      subst hrest hcaps
      refine ⟨⟨rest1, caps⟩, ⟨c, pre, hall c (List.mem_cons_self _ _),
        fun x hx => hall x (List.mem_cons_of_mem _ hx), by simp, rfl⟩, ?_⟩
      have := take_length_sub (c :: pre) rest1
      simp only [MState.mk.injEq, true_and]
      congr 1
      simpa using this.symm

theorem matches_designator (text : List Char) (rest : List Char) (caps : List (List Char))
    (s1 : MState) :
    (Re.cap 1 (.seq (.cls reLetterFold) (.star reWordFold))).Matches text ⟨rest, caps⟩ s1 ↔
      ∃ c w, reLetterFold c = true ∧ (∀ x ∈ w, reWordFold x = true) ∧
        rest = c :: (w ++ s1.rest) ∧ s1.caps = caps.set 1 (c :: w) := by
  constructor
  · rintro ⟨s2, ⟨s3, ⟨c, hc, hrest, hcaps⟩, ⟨w, hw, hrest3, hcaps3⟩⟩, rfl⟩
    simp only at hrest hcaps
    refine ⟨c, w, hc, hw, by rw [hrest, hrest3], ?_⟩
    simp only [hcaps3, hcaps, hrest, hrest3]
    congr 1
    have := take_length_sub (c :: w) s2.rest
    simpa using this
  · rintro ⟨c, w, hc, hw, hrest, hcaps⟩
    obtain ⟨rest1, caps1⟩ := s1
    simp only at hrest hcaps
    subst hrest hcaps
    refine ⟨⟨rest1, caps⟩, ⟨⟨w ++ rest1, caps⟩, ⟨c, hc, rfl, rfl⟩, ⟨w, hw, rfl, rfl⟩⟩, ?_⟩
    have := take_length_sub (c :: w) rest1
    simp only [MState.mk.injEq, true_and]
    congr 1
    simpa using this.symm

theorem matches_anyTail (text : List Char) (rest : List Char) (caps : List (List Char))
    (s1 : MState) :
    (Re.cap 6 (.star reAny)).Matches text ⟨rest, caps⟩ s1 ↔
      ∃ g, (∀ x ∈ g, reAny x = true) ∧ rest = g ++ s1.rest ∧ s1.caps = caps.set 6 g := by
  constructor
  · rintro ⟨s2, ⟨g, hg, hrest, hcaps⟩, rfl⟩
    simp only at hrest hcaps
    refine ⟨g, hg, hrest, ?_⟩
    simp only [hcaps, hrest]
    congr 1
    exact take_length_sub g s2.rest
  · rintro ⟨g, hg, hrest, hcaps⟩
    obtain ⟨rest1, caps1⟩ := s1
    simp only at hrest hcaps
    subst hrest hcaps
    refine ⟨⟨rest1, caps⟩, ⟨g, hg, rfl, rfl⟩, ?_⟩
    simp only [MState.mk.injEq, true_and]
    congr 1
    exact (take_length_sub g rest1).symm

theorem matches_optToken (text : List Char) (i : Nat) (rest : List Char)
    (caps : List (List Char)) (s1 : MState) :
    (Re.opt (.seq (.plus reSpace) (.cap i (.plus reNonSpace)))).Matches text ⟨rest, caps⟩ s1 ↔
      ((∃ sp tok, Spaces sp ∧ Token tok ∧ rest = sp ++ (tok ++ s1.rest) ∧
          s1.caps = caps.set i tok) ∨ s1 = ⟨rest, caps⟩) := by
  rw [matches_opt, matches_seq]
  constructor
  · rintro (⟨⟨r2, c2⟩, hsp, htok⟩ | h)
    · rw [matches_spaces] at hsp
      rw [matches_token] at htok
      obtain ⟨sp, hsp, hr, hc⟩ := hsp
      obtain ⟨tok, htok, hr2, hc2⟩ := htok
      simp only at hr hc
      subst hc
      exact Or.inl ⟨sp, tok, hsp, htok, by rw [hr, hr2], hc2⟩
    · exact Or.inr h
  · rintro (⟨sp, tok, hsp, htok, hr, hc⟩ | h)
    · refine Or.inl ⟨⟨tok ++ s1.rest, caps⟩, ?_, ?_⟩
      · rw [matches_spaces]
        exact ⟨sp, hsp, hr, rfl⟩
      · rw [matches_token]
        exact ⟨tok, htok, rfl, hc⟩
    · exact Or.inr h

theorem matches_optAny (text : List Char) (rest : List Char)
    (caps : List (List Char)) (s1 : MState) :
    (Re.opt (.seq (.plus reSpace) (.cap 6 (.star reAny)))).Matches text ⟨rest, caps⟩ s1 ↔
      ((∃ sp g, Spaces sp ∧ (∀ x ∈ g, reAny x = true) ∧ rest = sp ++ (g ++ s1.rest) ∧
          s1.caps = caps.set 6 g) ∨ s1 = ⟨rest, caps⟩) := by
  rw [matches_opt, matches_seq]
  constructor
  · rintro (⟨⟨r2, c2⟩, hsp, htok⟩ | h)
    · rw [matches_spaces] at hsp
      rw [matches_anyTail] at htok
      obtain ⟨sp, hsp, hr, hc⟩ := hsp
      obtain ⟨tok, htok, hr2, hc2⟩ := htok
      simp only at hr hc
      subst hc
      exact Or.inl ⟨sp, tok, hsp, htok, by rw [hr, hr2], hc2⟩
    · exact Or.inr h
  · rintro (⟨sp, tok, hsp, htok, hr, hc⟩ | h)
    · refine Or.inl ⟨⟨tok ++ s1.rest, caps⟩, ?_, ?_⟩
      · rw [matches_spaces]
        exact ⟨sp, hsp, hr, rfl⟩
      · rw [matches_anyTail]
        exact ⟨tok, htok, rfl, hc⟩
    · exact Or.inr h

theorem spaceStart_spaces_append (sp rest : List Char) (h : Spaces sp) :
    SpaceStart (sp ++ rest) := by
  obtain ⟨hne, hall⟩ := h
  cases sp with
  | nil => exact absurd rfl hne
  | cons c t => exact Or.inr ⟨c, t ++ rest, rfl, hall c (List.mem_cons_self _ _)⟩

theorem componentTail_sound (text tail a0 a1 a2 a3 : List Char) (s1 : MState)
    (h : (Re.seq (.opt (.seq (.plus reSpace) (.cap 4 (.plus reNonSpace))))
          (.seq (.opt (.seq (.plus reSpace) (.cap 5 (.plus reNonSpace))))
            (.seq (.opt (.seq (.plus reSpace) (.cap 6 (.star reAny)))) .eot))).Matches text
          ⟨tail, [a0, a1, a2, a3, [], [], []]⟩ s1) :
    ∃ g4 g5 g6, s1 = ⟨[], [a0, a1, a2, a3, g4, g5, g6]⟩ ∧ SpaceStart tail ∧
      (g4 ≠ [] → ∃ sp3 rest, tail = sp3 ++ (g4 ++ rest) ∧ Spaces sp3 ∧ Token g4 ∧
        SpaceStart rest) := by
  rw [matches_seq] at h
  obtain ⟨⟨r4, c4⟩, h4, h⟩ := h
  rw [matches_seq] at h
  obtain ⟨⟨r5, c5⟩, h5, h⟩ := h
  rw [matches_seq] at h
  obtain ⟨⟨r6, c6⟩, h6, h⟩ := h
  rw [matches_eot] at h
  obtain ⟨hr6, rfl⟩ := h
  simp only at hr6
  subst hr6
  rw [matches_optToken] at h4 h5
  rw [matches_optAny] at h6
  have hrest5 : SpaceStart r5 := by
    rcases h6 with ⟨sp, g, hsp, -, hr, -⟩ | h6
    · simp only at hr
      rw [hr]
      exact spaceStart_spaces_append _ _ hsp
    · simp only [MState.mk.injEq] at h6
      exact Or.inl h6.1.symm
  have hrest4 : SpaceStart r4 := by
    rcases h5 with ⟨sp, g, hsp, -, hr, -⟩ | h5
    · simp only at hr
      rw [hr]
      exact spaceStart_spaces_append _ _ hsp
    · simp only [MState.mk.injEq] at h5
      rw [← h5.1]
      exact hrest5
  have htail : SpaceStart tail := by
    rcases h4 with ⟨sp, g, hsp, -, hr, -⟩ | h4
    · simp only at hr
      rw [hr]
      exact spaceStart_spaces_append _ _ hsp
    · simp only [MState.mk.injEq] at h4
      rw [← h4.1]
      exact hrest4
  have hc5 : ∀ g4, c4 = [a0, a1, a2, a3, g4, [], []] →
      ∃ g5 g6, c6 = [a0, a1, a2, a3, g4, g5, g6] := by
    intro g4 hc4
    subst hc4
    rcases h5 with ⟨sp, g5, -, -, -, hc⟩ | h5
    · simp only at hc
      subst hc
      rcases h6 with ⟨sp6, g6, -, -, -, hc⟩ | h6
      · exact ⟨g5, g6, by simpa using hc⟩
      · simp only [MState.mk.injEq] at h6
        exact ⟨g5, [], by simpa using h6.2⟩
    · simp only [MState.mk.injEq] at h5
      obtain ⟨-, hc⟩ := h5
      subst hc
      rcases h6 with ⟨sp6, g6, -, -, -, hc⟩ | h6
      · exact ⟨[], g6, by simpa using hc⟩
      · simp only [MState.mk.injEq] at h6
        exact ⟨[], [], by simpa using h6.2⟩
  rcases h4 with ⟨sp, g4, hsp, htok, hr, hc⟩ | h4
  · simp only at hr hc
    obtain ⟨g5, g6, hc6⟩ := hc5 g4 (by simpa using hc)
    exact ⟨g4, g5, g6, by rw [hc6], htail, fun _ => ⟨sp, r4, hr, hsp, htok, hrest4⟩⟩
  · simp only [MState.mk.injEq] at h4
    obtain ⟨g5, g6, hc6⟩ := hc5 [] h4.2
    exact ⟨[], g5, g6, by rw [hc6], htail, fun hne => absurd rfl hne⟩

/-! ### The pattern of `parseComponent` -/

theorem componentRe_matchAt_short (text rest : List Char) (h : rest.length ≠ text.length) :
    componentRe.matchAt 6 text rest = none := by
  simp [Re.matchAt, componentRe, Re.run, h]

theorem componentRe_search_short (text : List Char) :
    ∀ rest : List Char, rest.length < text.length → componentRe.search 6 text rest = none := by
  intro rest
  induction rest with
  | nil =>
    intro h
    simp only [Re.search]
    exact componentRe_matchAt_short text [] (by simpa using h.ne)
  | cons c t ih =>
    intro h
    simp only [Re.search]
    rw [componentRe_matchAt_short text (c :: t) h.ne]
    exact ih (by simp at h; omega)

/-- The pattern is anchored: only the start position 0 can match. -/
theorem componentRe_find (text : List Char) :
    componentRe.findStringSubmatch 6 text = componentRe.matchAt 6 text text := by
  cases text with
  | nil => simp [Re.findStringSubmatch, Re.search]
  | cons c t =>
    simp only [Re.findStringSubmatch, Re.search]
    cases h : componentRe.matchAt 6 (c :: t) (c :: t) with
    | some m => rfl
    | none => exact componentRe_search_short (c :: t) t (by simp)

/-- Declarative match of the whole pattern, spelled out on the line. -/
theorem componentRe_matches (text rest : List Char) (s1 : MState)
    (h : componentRe.Matches text ⟨rest, [[], [], [], [], [], [], []]⟩ s1) :
    ∃ c0 w sp1 t2 sp2 t3 tail g4 g5 g6,
      rest = c0 :: (w ++ (sp1 ++ (t2 ++ (sp2 ++ (t3 ++ tail))))) ∧
      s1 = ⟨[], [[], c0 :: w, t2, t3, g4, g5, g6]⟩ ∧
      reLetterFold c0 = true ∧ (∀ x ∈ w, reWordFold x = true) ∧
      Spaces sp1 ∧ Token t2 ∧ Spaces sp2 ∧ Token t3 ∧ SpaceStart tail ∧
      (g4 ≠ [] → ∃ sp3 rest4, tail = sp3 ++ (g4 ++ rest4) ∧ Spaces sp3 ∧ Token g4 ∧
        SpaceStart rest4) := by
  unfold componentRe at h
  rw [matches_seq] at h
  obtain ⟨s, hbot, h⟩ := h
  rw [matches_bot] at hbot
  obtain ⟨-, rfl⟩ := hbot
  rw [matches_seq] at h
  obtain ⟨⟨r1, c1⟩, h1, h⟩ := h
  rw [matches_designator] at h1
  obtain ⟨c0, w, hc0, hw, hr1, hcaps1⟩ := h1
  rw [matches_seq] at h
  obtain ⟨⟨r2, c2⟩, h2, h⟩ := h
  rw [matches_spaces] at h2
  obtain ⟨sp1, hsp1, hr2, hcaps2⟩ := h2
  rw [matches_seq] at h
  obtain ⟨⟨r3, c3⟩, h3, h⟩ := h
  rw [matches_token] at h3
  obtain ⟨t2, ht2, hr3, hcaps3⟩ := h3
  rw [matches_seq] at h
  obtain ⟨⟨r4, c4⟩, h4, h⟩ := h
  rw [matches_spaces] at h4
  obtain ⟨sp2, hsp2, hr4, hcaps4⟩ := h4
  rw [matches_seq] at h
  obtain ⟨⟨r5, c5⟩, h5, h⟩ := h
  rw [matches_token] at h5
  obtain ⟨t3, ht3, hr5, hcaps5⟩ := h5
  simp only at hr1 hcaps1 hr2 hcaps2 hr3 hcaps3 hr4 hcaps4 hr5 hcaps5
  subst hcaps2 hcaps4
  have hc5 : c5 = [[], c0 :: w, t2, t3, [], [], []] := by
    rw [hcaps5, hcaps3, hcaps1]
    rfl
  subst hc5
  obtain ⟨g4, g5, g6, hs1, htail, hg4⟩ := componentTail_sound text r5 _ _ _ _ s1 h
  exact ⟨c0, w, sp1, t2, sp2, t3, r5, g4, g5, g6, by rw [hr1, hr2, hr3, hr4, hr5], hs1, hc0, hw,
    hsp1, ht2, hsp2, ht3, htail, hg4⟩

/-- Shape of every successful `FindStringSubmatch` of the component pattern:
designator, two tokens, and the three optional groups. -/
theorem componentRe_shape (line : List Char) (found : List (List Char))
    (h : componentRe.findStringSubmatch 6 line = some found) :
    ∃ c0 w sp1 t2 sp2 t3 tail g4 g5 g6,
      line = c0 :: (w ++ (sp1 ++ (t2 ++ (sp2 ++ (t3 ++ tail))))) ∧
      found = [line, c0 :: w, t2, t3, g4, g5, g6] ∧
      reLetterFold c0 = true ∧ (∀ x ∈ w, reWordFold x = true) ∧
      Spaces sp1 ∧ Token t2 ∧ Spaces sp2 ∧ Token t3 ∧ SpaceStart tail ∧
      (g4 ≠ [] → ∃ sp3 rest4, tail = sp3 ++ (g4 ++ rest4) ∧ Spaces sp3 ∧ Token g4 ∧
        SpaceStart rest4) := by
  rw [componentRe_find] at h
  unfold Re.matchAt at h
  obtain ⟨s1, hm, hk⟩ := Re.run_sound line componentRe _ _ _ h
  obtain ⟨c0, w, sp1, t2, sp2, t3, tail, g4, g5, g6, hline, hs1, hrest⟩ :=
    componentRe_matches line line s1 hm
  refine ⟨c0, w, sp1, t2, sp2, t3, tail, g4, g5, g6, hline, ?_, hrest⟩
  subst hs1
  simp only [Option.some.injEq] at hk
  rw [← hk]
  simp

/-- A line of the shape below has a match. -/
theorem componentRe_exists (line : List Char) (c0 : Char) (w sp1 t2 sp2 t3 tail : List Char)
    (hline : line = c0 :: (w ++ (sp1 ++ (t2 ++ (sp2 ++ (t3 ++ tail))))))
    (hc0 : reLetterFold c0 = true) (hw : ∀ x ∈ w, reWordFold x = true)
    (hsp1 : Spaces sp1) (ht2 : Token t2) (hsp2 : Spaces sp2) (ht3 : Token t3)
    (htail : tail = [] ∨ ∃ sp g, tail = sp ++ g ∧ Spaces sp ∧ ∀ x ∈ g, reAny x = true) :
    ∃ found, componentRe.findStringSubmatch 6 line = some found := by
  rw [componentRe_find]
  unfold Re.matchAt
  have hm : ∃ s1, componentRe.Matches line ⟨line, [[], [], [], [], [], [], []]⟩ s1 := by
    unfold componentRe
    have htl : ∃ c1, (Re.seq (.opt (.seq (.plus reSpace) (.cap 6 (.star reAny)))) .eot).Matches line
        ⟨tail, [[], c0 :: w, t2, t3, [], [], []]⟩ ⟨[], c1⟩ := by
      rcases htail with rfl | ⟨sp, g, rfl, hsp, hg⟩
      · exact ⟨_, ⟨[], _⟩, Or.inr rfl, rfl, rfl⟩
      · refine ⟨[[], c0 :: w, t2, t3, [], [], g], ⟨[], [[], c0 :: w, t2, t3, [], [], g]⟩, ?_, rfl, rfl⟩
        rw [matches_optAny]
        exact Or.inl ⟨sp, g, hsp, hg, by simp, rfl⟩
    obtain ⟨c1, htl⟩ := htl
    refine ⟨⟨[], c1⟩, ?_⟩
    rw [matches_seq]
    refine ⟨⟨line, [[], [], [], [], [], [], []]⟩, ⟨rfl, rfl⟩, ?_⟩
    rw [matches_seq]
    refine ⟨⟨sp1 ++ (t2 ++ (sp2 ++ (t3 ++ tail))), [[], c0 :: w, [], [], [], [], []]⟩, ?_, ?_⟩
    · rw [matches_designator]
      exact ⟨c0, w, hc0, hw, hline, rfl⟩
    rw [matches_seq]
    refine ⟨⟨t2 ++ (sp2 ++ (t3 ++ tail)), [[], c0 :: w, [], [], [], [], []]⟩, ?_, ?_⟩
    · rw [matches_spaces]
      exact ⟨sp1, hsp1, rfl, rfl⟩
    rw [matches_seq]
    refine ⟨⟨sp2 ++ (t3 ++ tail), [[], c0 :: w, t2, [], [], [], []]⟩, ?_, ?_⟩
    · rw [matches_token]
      exact ⟨t2, ht2, rfl, rfl⟩
    rw [matches_seq]
    refine ⟨⟨t3 ++ tail, [[], c0 :: w, t2, [], [], [], []]⟩, ?_, ?_⟩
    · rw [matches_spaces]
      exact ⟨sp2, hsp2, rfl, rfl⟩
    rw [matches_seq]
    refine ⟨⟨tail, [[], c0 :: w, t2, t3, [], [], []]⟩, ?_, ?_⟩
    · rw [matches_token]
      exact ⟨t3, ht3, rfl, rfl⟩
    rw [matches_seq]
    refine ⟨⟨tail, [[], c0 :: w, t2, t3, [], [], []]⟩, Or.inr rfl, ?_⟩
    rw [matches_seq]
    exact ⟨⟨tail, [[], c0 :: w, t2, t3, [], [], []]⟩, Or.inr rfl, htl⟩
  obtain ⟨s1, hm⟩ := hm
  exact Re.run_complete line componentRe _ s1 _ _ hm rfl

/-! ### `parseValue` -/

theorem scanValue_append (pre rest : List Char) (hpre : ∀ ch ∈ pre, isNumChar ch = true) :
    scanValue (pre ++ rest) = (pre ++ (scanValue rest).1, (scanValue rest).2) := by
  induction pre with
  | nil => simp
  | cons c t ih =>
    have hc : isNumChar c = true := hpre c (List.mem_cons_self _ _)
    have ht := ih (fun ch hch => hpre ch (List.mem_cons_of_mem _ hch))
    rw [List.cons_append, scanValue, if_pos hc, ht]
    rfl

/-- What `parseValue` does with a token whose numeric prefix `ParseFloat`
accepts and whose next character is `c`. -/
theorem parseValue_prefix_unit (pre rest : List Char) (c : Char) (v : F64)
    (hpre : ∀ ch ∈ pre, isNumChar ch = true) (hv : parseFloat pre = .ok v)
    (hc : isNumChar c = false) :
    parseValue (pre ++ c :: rest) =
      if c.toNat % 256 ≠ 0 then
        match unitMap (c.toNat % 256) with
        | none => .error ("unknown unit: " ++ String.singleton (Char.ofNat (c.toNat % 256)))
        | some multiplier => .ok (F64.mul v multiplier)
      else .ok v := by
  have hs : scanValue (c :: rest) = ([], c.toNat % 256) := by
    simp [scanValue, hc]
  simp only [parseValue, scanValue_append pre (c :: rest) hpre, hs, List.append_nil, hv]

theorem parseValue_prefix_only (pre : List Char) (v : F64)
    (hpre : ∀ ch ∈ pre, isNumChar ch = true) (hv : parseFloat pre = .ok v) :
    parseValue pre = .ok v := by
  have h := scanValue_append pre [] hpre
  simp only [List.append_nil, scanValue] at h
  simp [parseValue, h, hv]

/-- C1. `parseValue` decodes by the case-sensitive multiplier table: a numeric
prefix (digits, `.`, `-`) that `ParseFloat` accepts with value `v`, followed by
nothing, gives `v`; followed by one of `T G M K m u n p` it gives `v` times
the binary64 constant `1e12, 1e9, 1e6, 1e3, 1e-3, 1e-6, 1e-9, 1e-12`. -/
theorem parseValue_multiplier_table (pre : List Char) (v : F64)
    (hpre : ∀ ch ∈ pre, isNumChar ch = true) (hv : parseFloat pre = .ok v) :
    parseValue pre = .ok v ∧
    parseValue (pre ++ ['T']) = .ok (F64.mul v (F64.ofRatio false (10 ^ 12) 1)) ∧
    parseValue (pre ++ ['G']) = .ok (F64.mul v (F64.ofRatio false (10 ^ 9) 1)) ∧
    parseValue (pre ++ ['M']) = .ok (F64.mul v (F64.ofRatio false (10 ^ 6) 1)) ∧
    parseValue (pre ++ ['K']) = .ok (F64.mul v (F64.ofRatio false (10 ^ 3) 1)) ∧
    parseValue (pre ++ ['m']) = .ok (F64.mul v (F64.ofRatio false 1 (10 ^ 3))) ∧
    parseValue (pre ++ ['u']) = .ok (F64.mul v (F64.ofRatio false 1 (10 ^ 6))) ∧
    parseValue (pre ++ ['n']) = .ok (F64.mul v (F64.ofRatio false 1 (10 ^ 9))) ∧
    parseValue (pre ++ ['p']) = .ok (F64.mul v (F64.ofRatio false 1 (10 ^ 12))) := by
  refine ⟨parseValue_prefix_only pre v hpre hv, ?_, ?_, ?_, ?_, ?_, ?_, ?_, ?_⟩ <;>
    rw [parseValue_prefix_unit pre [] _ v hpre hv (by decide)] <;> rfl

set_option maxRecDepth 100000 in
/-- C1, at the tokens `3.3m` and `-5n`: the prefix `3.3` is accepted with the
binary64 nearest to 3.3, and `3.3m` is that value times the constant
`1e-3`. -/
theorem parseValue_multiplier_table_witness :
    parseFloat "3.3".toList = .ok ⟨false, 1024, 2927339757790822⟩ ∧
    parseValue ("3.3".toList ++ ['m']) =
      .ok (F64.mul ⟨false, 1024, 2927339757790822⟩ (F64.ofRatio false 1 (10 ^ 3))) :=
  ⟨by decide, (parseValue_multiplier_table "3.3".toList ⟨false, 1024, 2927339757790822⟩
    (by decide) (by decide)).2.2.2.2.2.1⟩

set_option maxRecDepth 100000 in
/-- The two witnesses of the specification evaluated: `3.3m` is the binary64
0.0033 and `-5n` is the binary64 -5e-9. -/
theorem parseValue_examples :
    parseValue "3.3m".toList = .ok ⟨false, 1014, 3105682303034694⟩ ∧
    parseValue "-5n".toList = .ok ⟨true, 995, 1541029470702650⟩ := by
  constructor <;> decide

/-- C2, refuted as stated: `parseValue("10k")` does not succeed, with 10000
or with any other value. -/
theorem parseValue_10k_fails : ¬ ∃ v, parseValue "10k".toList = .ok v := by
  rintro ⟨v, h⟩
  have e : parseValue "10k".toList = .error "unknown unit: k" := by decide
  rw [e] at h
  exact absurd h (by simp)

set_option maxRecDepth 100000 in
/-- C2, amended: the 1e3 multiplier is the upper-case `K` only.
`parseValue("10K")` succeeds with the binary64 that is exactly 10000, while
`k` has no entry in the table and `parseValue("10k")` is the error `unknown
unit: k`. -/
theorem parseValue_10K_upper_only :
    parseValue "10K".toList = .ok ⟨false, 1036, 993958511509504⟩ ∧
    F64.toRat ⟨false, 1036, 993958511509504⟩ = 10000 ∧
    unitMap 'k'.toNat = none ∧
    parseValue "10k".toList = .error "unknown unit: k" := by
  refine ⟨by decide, ?_, by decide, by decide⟩
  norm_num [F64.toRat, F64.sig]

theorem char_eq_of_toNat (c d : Char) (h : c.toNat = d.toNat) : c = d := by
  have hc := Char.ofNat_toNat c
  have hd := Char.ofNat_toNat d
  rw [← hc, ← hd, h]

/-- On the characters that are one byte wide in Latin-1 (below U+0100, and not
NUL) the unknown-unit error is as specified: every such character that is
neither numeric nor a key of the table is reported by itself. -/
theorem parseValue_unknown_unit_latin1 (pre rest : List Char) (c : Char) (v : F64)
    (hpre : ∀ ch ∈ pre, isNumChar ch = true) (hv : parseFloat pre = .ok v)
    (hc : isNumChar c = false) (hlat : c.toNat < 256) (hnul : c.toNat ≠ 0)
    (htab : c ∉ ['T', 'G', 'M', 'K', 'm', 'u', 'n', 'p']) :
    parseValue (pre ++ c :: rest) = .error ("unknown unit: " ++ String.singleton c) := by
  rw [parseValue_prefix_unit pre rest c v hpre hv hc]
  have hmod : c.toNat % 256 = c.toNat := Nat.mod_eq_of_lt hlat
  simp only [List.mem_cons, List.mem_singleton, List.not_mem_nil, or_false, not_or] at htab
  obtain ⟨h1, h2, h3, h4, h5, h6, h7, h8⟩ := htab
  have hne : ∀ d : Char, c ≠ d → c.toNat ≠ d.toNat := fun d hd heq => hd (char_eq_of_toNat c d heq)
  have hu : unitMap c.toNat = none := by
    simp only [unitMap, if_neg (hne _ h1), if_neg (hne _ h2), if_neg (hne _ h3),
      if_neg (hne _ h4), if_neg (hne _ h5), if_neg (hne _ h6), if_neg (hne _ h7),
      if_neg (hne _ h8)]
  rw [hmod, if_pos hnul, hu, Char.ofNat_toNat]

set_option maxRecDepth 100000 in
/-- C3, the code at the failing inputs.  `unitChar = byte(c)` keeps the low
eight bits of the code point only: after the prefix `1`, U+0154 is read as the
byte of `T` and multiplies by 1e12, U+0100 is read as byte 0, "no suffix",
and the value 1 is returned; U+0165 fails, but is reported as `e`. -/
theorem parseValue_suffix_truncated_to_byte :
    parseValue ['1', Char.ofNat 0x154] = .ok ⟨false, 1062, 3688400372629504⟩ ∧
    parseValue ['1', Char.ofNat 0x100] = .ok ⟨false, 1023, 0⟩ ∧
    parseValue ['1', Char.ofNat 0x165] = .error "unknown unit: e" := by
  refine ⟨by decide, by decide, by decide⟩

/-! ### Tokens of a line -/

theorem fieldsBy_cons_space (sp : Char → Bool) (c : Char) (t : List Char) (hc : sp c = true) :
    fieldsBy sp (c :: t) = fieldsBy sp t := by
  cases t <;> simp [fieldsBy, hc]

theorem fieldsBy_spaces_append (sp : Char → Bool) (s rest : List Char)
    (hs : ∀ x ∈ s, sp x = true) : fieldsBy sp (s ++ rest) = fieldsBy sp rest := by
  induction s with
  | nil => rfl
  | cons c t ih =>
    have hc : sp c = true := hs c (List.mem_cons_self _ _)
    rw [List.cons_append, fieldsBy_cons_space sp c _ hc]
    exact ih (fun x hx => hs x (List.mem_cons_of_mem _ hx))

theorem fieldsBy_token_append (sp : Char → Bool) (tok rest : List Char) (hne : tok ≠ [])
    (htok : ∀ x ∈ tok, sp x = false)
    (hrest : rest = [] ∨ ∃ c t, rest = c :: t ∧ sp c = true) :
    fieldsBy sp (tok ++ rest) = tok :: fieldsBy sp rest := by
  induction tok with
  | nil => exact absurd rfl hne
  | cons c t ih =>
    have hc : sp c = false := htok c (List.mem_cons_self _ _)
    cases t with
    | nil =>
      rcases hrest with rfl | ⟨d, u, rfl, hd⟩
      · simp [fieldsBy, hc]
      · simp [fieldsBy, hc, hd]
    | cons d u =>
      have hd : sp d = false := htok d (List.mem_cons_of_mem _ (List.mem_cons_self _ _))
      have ih1 := ih (by simp) (fun x hx => htok x (List.mem_cons_of_mem _ hx))
      simp only [List.cons_append] at ih1 ⊢
      rw [fieldsBy]
      simp [hc, hd, ih1]

theorem reWordFold_not_space (x : Char) (h : reWordFold x = true) : reSpace x = false := by
  cases hx : reSpace x with
  | false => rfl
  | true =>
    exfalso
    simp only [reSpace, Bool.or_eq_true, decide_eq_true_eq] at hx
    rcases hx with (((rfl | rfl) | rfl) | rfl) | rfl <;> revert h <;> decide

theorem reLetterFold_word (x : Char) (h : reLetterFold x = true) : reWordFold x = true := by
  simp [reWordFold, h]

theorem spaces_all (sp : List Char) (h : Spaces sp) : ∀ x ∈ sp, reSpace x = true := h.2

theorem token_all (tok : List Char) (h : Token tok) : ∀ x ∈ tok, reSpace x = false := by
  intro x hx
  have := h.2 x hx
  simpa [reNonSpace] using this

/-- Tokens of a line that the component pattern has matched. -/
theorem fieldsBy_component_line (c0 : Char) (w sp1 t2 sp2 t3 tail : List Char)
    (hc0 : reLetterFold c0 = true) (hw : ∀ x ∈ w, reWordFold x = true)
    (hsp1 : Spaces sp1) (ht2 : Token t2) (hsp2 : Spaces sp2) (ht3 : Token t3)
    (htail : SpaceStart tail) :
    fieldsBy reSpace (c0 :: (w ++ (sp1 ++ (t2 ++ (sp2 ++ (t3 ++ tail)))))) =
      (c0 :: w) :: t2 :: t3 :: fieldsBy reSpace tail := by
  have hd : ∀ x ∈ c0 :: w, reSpace x = false := by
    intro x hx
    rcases List.mem_cons.1 hx with rfl | hx
    · exact reWordFold_not_space _ (reLetterFold_word _ hc0)
    · exact reWordFold_not_space _ (hw x hx)
  have h1 := fieldsBy_token_append reSpace (c0 :: w) (sp1 ++ (t2 ++ (sp2 ++ (t3 ++ tail))))
    (by simp) hd (spaceStart_spaces_append _ _ hsp1)
  have h2 := fieldsBy_spaces_append reSpace sp1 (t2 ++ (sp2 ++ (t3 ++ tail))) hsp1.2
  have h3 := fieldsBy_token_append reSpace t2 (sp2 ++ (t3 ++ tail)) ht2.1 (token_all _ ht2)
    (spaceStart_spaces_append _ _ hsp2)
  have h4 := fieldsBy_spaces_append reSpace sp2 (t3 ++ tail) hsp2.2
  have h5 := fieldsBy_token_append reSpace t3 tail ht3.1 (token_all _ ht3) htail
  rw [← List.cons_append, h1, h2, h3, h4, h5]

/-! ### `parseComponent` -/

/-- The function `parseComponent` once the submatches are known. -/
theorem parseComponent_found (line m0 m1 t2 t3 g4 g5 g6 : List Char)
    (hf : componentRe.findStringSubmatch 6 line = some [m0, m1, t2, t3, g4, g5, g6]) :
    parseComponent line =
      (upperFirstByte m1).bind fun compType =>
        if compType = ['R'] ∨ compType = ['C'] ∨ compType = ['L'] then
          match parseValue g4 with
          | .ok val => .ok ⟨0, compType, [t2, t3], [], GoMap.set [] "value".toList val⟩
          | .error err => .error err
        else if compType = ['M'] then .ok ⟨0, compType, [t2, t3, g4, g5], g6, []⟩
        else .error ("unsupported component type: " ++ String.mk compType) := by
  simp only [parseComponent, hf, Outcome.index, List.get?, Outcome.bind]

theorem parseComponent_nomatch (line : List Char)
    (hf : componentRe.findStringSubmatch 6 line = none) :
    parseComponent line = .error "invalid component syntax" := by
  simp only [parseComponent, hf]

theorem parseValue_nil : parseValue [] = .error (numError [] "invalid syntax") := by decide

/-- C4. When `parseComponent` succeeds on a line whose first character is
`r`, `c` or `l` in either case, the line has at least four tokens (separated
by the white space `\s` of the pattern) and the Component has that character
upper-cased as Type, the 2nd and 3rd tokens as its two nodes, an empty Model,
and the single parameter `value`, the `parseValue` of the 4th token. -/
theorem parseComponent_passive (line : List Char) (c : Char) (comp : Component)
    (hhead : line.head? = some c) (hc : c ∈ ['r', 'c', 'l', 'R', 'C', 'L'])
    (hok : parseComponent line = .ok comp) :
    ∃ d n1 n2 val more v,
      fieldsBy reSpace line = d :: n1 :: n2 :: val :: more ∧
      parseValue val = .ok v ∧
      comp.Typ = [c.toUpper] ∧ (comp.Typ = ['R'] ∨ comp.Typ = ['C'] ∨ comp.Typ = ['L']) ∧
      comp.Nodes = [n1, n2] ∧ comp.Model = [] ∧
      comp.Params = [("value".toList, v)] ∧
      GoMap.get comp.Params "value".toList = some v := by
  cases hf : componentRe.findStringSubmatch 6 line with
  | none =>
    rw [parseComponent_nomatch line hf] at hok
    exact absurd hok (by simp)
  | some found =>
    obtain ⟨c0, w, sp1, t2, sp2, t3, tail, g4, g5, g6, hline, hfound, hc0, hw, hsp1, ht2, hsp2,
      ht3, htail, hg4⟩ := componentRe_shape line found hf
    subst hfound
    rw [parseComponent_found line _ _ _ _ _ _ _ hf] at hok
    have hcc : c0 = c := by
      rw [hline] at hhead
      simpa using hhead
    subst hcc
    have hup : upperFirstByte (c0 :: w) = .ok [c0.toUpper] ∧
        ([c0.toUpper] = ['R'] ∨ [c0.toUpper] = ['C'] ∨ [c0.toUpper] = ['L']) := by
      simp only [List.mem_cons, List.mem_singleton, List.not_mem_nil, or_false] at hc
      rcases hc with rfl | rfl | rfl | rfl | rfl | rfl <;> exact ⟨by rfl, by decide⟩
    obtain ⟨hup1, hup2⟩ := hup
    rw [hup1] at hok
    simp only [Outcome.bind, if_pos hup2] at hok
    cases hv : parseValue g4 with
    | error e =>
      rw [hv] at hok
      exact absurd hok (by simp)
    | ok v =>
      rw [hv] at hok
      simp only [Outcome.ok.injEq] at hok
      have hne : g4 ≠ [] := by
        rintro rfl
        rw [parseValue_nil] at hv
        exact absurd hv (by simp)
      obtain ⟨sp3, rest4, htl, hsp3, htok4, hrest4⟩ := hg4 hne
      have hfields := fieldsBy_component_line c0 w sp1 t2 sp2 t3 tail hc0 hw hsp1 ht2 hsp2 ht3 htail
      have h6 := fieldsBy_spaces_append reSpace sp3 (g4 ++ rest4) hsp3.2
      have h7 := fieldsBy_token_append reSpace g4 rest4 htok4.1 (token_all _ htok4) hrest4
      refine ⟨c0 :: w, t2, t3, g4, fieldsBy reSpace rest4, v, ?_, hv, ?_, ?_, ?_, ?_, ?_, ?_⟩
      · rw [hline, hfields, htl, h6, h7]
      · rw [← hok]
      · rw [← hok]
        exact hup2
      · rw [← hok]
      · rw [← hok]
      · rw [← hok]
        rfl
      · rw [← hok]
        simp [GoMap.set, GoMap.get]

set_option maxRecDepth 100000 in
/-- C4 at the line `R1 a b 10K`: the call succeeds, and the nodes and the
`value` parameter of the Component are the tokens 2, 3 and the decoded token
4 of the line. -/
theorem parseComponent_passive_witness :
    parseComponent "R1 a b 10K".toList =
      .ok ⟨0, ['R'], [['a'], ['b']], [], [("value".toList, ⟨false, 1036, 993958511509504⟩)]⟩ ∧
    ∃ d n1 n2 val more v,
      fieldsBy reSpace "R1 a b 10K".toList = d :: n1 :: n2 :: val :: more ∧
      parseValue val = .ok v ∧ [['a'], ['b']] = [n1, n2] ∧
      [("value".toList, (⟨false, 1036, 993958511509504⟩ : F64))] = [("value".toList, v)] :=
  ⟨by decide,
    match parseComponent_passive "R1 a b 10K".toList 'R'
      ⟨0, ['R'], [['a'], ['b']], [], [("value".toList, ⟨false, 1036, 993958511509504⟩)]⟩
      (by decide) (by decide) (by decide) with
    | ⟨d, n1, n2, val, more, v, h1, h2, _, _, h5, _, h7, _⟩ =>
      ⟨d, n1, n2, val, more, v, h1, h2, h5, h7⟩⟩

set_option maxRecDepth 100000 in
/-- C5, the code at the failing inputs: an `M` line with two node tokens, and
one with four node tokens and no model name, are both accepted; the Component
has empty node identifiers, or an empty model name. -/
theorem parseComponent_M_accepts_missing_tokens :
    parseComponent "M1 a b".toList = .ok ⟨0, ['M'], [['a'], ['b'], [], []], [], []⟩ ∧
    parseComponent "M1 d g s b".toList =
      .ok ⟨0, ['M'], [['d'], ['g'], ['s'], ['b']], [], []⟩ := by
  constructor <;> decide

set_option maxRecDepth 100000 in
/-- C6, refuted as stated: on `R1 a b` the pattern matches with an empty 4th
group and the failure is the one of `parseValue("")`, whose message is not
`invalid component syntax`. -/
theorem parseComponent_missing_value_message :
    parseComponent "R1 a b".toList =
      .error "strconv.ParseFloat: parsing \"\": invalid syntax" := by decide

theorem fieldsBy_all_spaces (sp : Char → Bool) (s : List Char) (hs : ∀ x ∈ s, sp x = true) :
    fieldsBy sp s = [] := by
  have h := fieldsBy_spaces_append sp s [] hs
  rw [List.append_nil] at h
  rw [h]
  rfl

/-- C6, amended.  A line with fewer than three tokens (a node token is
missing) fails with `invalid component syntax`.  A resistor, capacitor or
inductor line made of a designator and two node tokens only fails as well and
returns no Component, with the message of the numeric error of
`parseValue("")`. -/
theorem parseComponent_missing_tokens (line : List Char) :
    ((fieldsBy reSpace line).length < 3 →
      parseComponent line = .error "invalid component syntax") ∧
    (∀ (c0 : Char) (w sp1 n1 sp2 n2 trail : List Char),
      line = c0 :: (w ++ (sp1 ++ (n1 ++ (sp2 ++ (n2 ++ trail))))) →
      c0 ∈ ['r', 'c', 'l', 'R', 'C', 'L'] → (∀ x ∈ w, reWordFold x = true) →
      Spaces sp1 → Token n1 → Spaces sp2 → Token n2 → (∀ x ∈ trail, reSpace x = true) →
      parseComponent line = .error "strconv.ParseFloat: parsing \"\": invalid syntax") := by
  constructor
  · intro hlen
    cases hf : componentRe.findStringSubmatch 6 line with
    | none => exact parseComponent_nomatch line hf
    | some found =>
      exfalso
      obtain ⟨c0, w, sp1, t2, sp2, t3, tail, g4, g5, g6, hline, -, hc0, hw, hsp1, ht2, hsp2,
        ht3, htail, -⟩ := componentRe_shape line found hf
      rw [hline, fieldsBy_component_line c0 w sp1 t2 sp2 t3 tail hc0 hw hsp1 ht2 hsp2 ht3 htail]
        at hlen
      simp only [List.length_cons] at hlen
      omega
  · intro c0 w sp1 n1 sp2 n2 trail hline hc0 hw hsp1 hn1 hsp2 hn2 htrail
    have hlet : reLetterFold c0 = true := by
      simp only [List.mem_cons, List.mem_singleton, List.not_mem_nil, or_false] at hc0
      rcases hc0 with rfl | rfl | rfl | rfl | rfl | rfl <;> decide
    have htl : trail = [] ∨ ∃ sp g, trail = sp ++ g ∧ Spaces sp ∧ ∀ x ∈ g, reAny x = true := by
      cases htr : trail with
      | nil => exact Or.inl rfl
      | cons a b =>
        refine Or.inr ⟨a :: b, [], by simp, ⟨by simp, ?_⟩, by simp⟩
        rw [← htr]
        exact htrail
    have hss : SpaceStart trail := by
      cases htr : trail with
      | nil => exact Or.inl rfl
      | cons a b =>
        exact Or.inr ⟨a, b, rfl, htrail a (by rw [htr]; exact List.mem_cons_self _ _)⟩
    obtain ⟨found, hf⟩ := componentRe_exists line c0 w sp1 n1 sp2 n2 trail hline hlet hw hsp1 hn1
      hsp2 hn2 htl
    obtain ⟨d0, w1, s1, t2, s2, t3, tail, g4, g5, g6, hline1, hfound, hd0, hw1, hs1, ht2, hs2,
      ht3, htail, hg4⟩ := componentRe_shape line found hf
    subst hfound
    have hcc : d0 = c0 := by
      have h := hline1
      rw [hline] at h
      simp only [List.cons.injEq] at h
      exact h.1.symm
    subst hcc
    have hf1 := fieldsBy_component_line d0 w sp1 n1 sp2 n2 trail hlet hw hsp1 hn1 hsp2 hn2 hss
    rw [← hline, fieldsBy_all_spaces reSpace trail htrail] at hf1
    have hf2 := fieldsBy_component_line d0 w1 s1 t2 s2 t3 tail hd0 hw1 hs1 ht2 hs2 ht3 htail
    rw [← hline1, hf1] at hf2
    have hg : g4 = [] := by
      by_contra hne
      obtain ⟨sp3, rest4, htl4, hsp3, htok4, hrest4⟩ := hg4 hne
      rw [htl4, fieldsBy_spaces_append reSpace sp3 (g4 ++ rest4) hsp3.2,
        fieldsBy_token_append reSpace g4 rest4 htok4.1 (token_all _ htok4) hrest4] at hf2
      simp at hf2
    subst hg
    rw [parseComponent_found line _ _ _ _ _ _ _ hf]
    have hup : upperFirstByte (d0 :: w1) = .ok [d0.toUpper] ∧
        ([d0.toUpper] = ['R'] ∨ [d0.toUpper] = ['C'] ∨ [d0.toUpper] = ['L']) := by
      simp only [List.mem_cons, List.mem_singleton, List.not_mem_nil, or_false] at hc0
      rcases hc0 with rfl | rfl | rfl | rfl | rfl | rfl <;> exact ⟨by rfl, by decide⟩
    rw [hup.1]
    simp only [Outcome.bind, if_pos hup.2, parseValue_nil]
    rfl

set_option maxRecDepth 100000 in
/-- C6, amended, at the lines `R1 a` (a node is missing) and `R1 a b` (the
value is missing). -/
theorem parseComponent_missing_tokens_witness :
    parseComponent "R1 a".toList = .error "invalid component syntax" ∧
    parseComponent "R1 a b".toList =
      .error "strconv.ParseFloat: parsing \"\": invalid syntax" :=
  ⟨(parseComponent_missing_tokens "R1 a".toList).1 (by decide),
   (parseComponent_missing_tokens "R1 a b".toList).2 'R' ['1'] [' '] ['a'] [' '] ['b'] []
     (by decide) (by decide) (by decide) ⟨by decide, by decide⟩ ⟨by decide, by decide⟩
     ⟨by decide, by decide⟩ ⟨by decide, by decide⟩ (by decide)⟩

/-! ### The worker step -/

theorem cut_append (sep : Char) (a b : List Char) (ha : sep ∉ a) :
    cut sep (a ++ sep :: b) = some (a, b) := by
  induction a with
  | nil => simp [cut]
  | cons c t ih =>
    have hc : c ≠ sep := fun h => ha (by rw [h]; exact List.mem_cons_self _ _)
    have ht := ih (fun h => ha (List.mem_cons_of_mem _ h))
    simp [cut, hc, ht]

theorem splitN2_append (sep : Char) (a b : List Char) (ha : sep ∉ a) :
    splitN2 sep (a ++ sep :: b) = [a, b] := by
  simp [splitN2, cut_append sep a b ha]

/-- The worker step on an element `num|text` of the `lines` channel whose
trimmed text is a component-instance line: not empty and not starting with
`*` or `.`. -/
theorem workerStep_component (up : Char → Char) (p : Parser) (num text : List Char)
    (c : Char) (rest : List Char) (hnum : '|' ∉ num) (htext : trimSpace text = c :: rest)
    (hstar : c ≠ '*') (hdot : c ≠ '.') :
    workerStep up p (num ++ '|' :: text) =
      match parseComponent (c :: rest) with
      | .error err => .ok (p.report (atoi num) err)
      | .panic => .panic
      | .ok comp =>
        .ok { p with Netlist := { p.Netlist with
                Components := p.Netlist.Components ++ [{ comp with LineNum := atoi num }] } } := by
  have h1 : hasPrefix (c :: rest) ['*'] = false := by
    simp [hasPrefix, List.isPrefixOf, Ne.symm hstar]
  have h2 : hasPrefix (c :: rest) ".model".toList = false := by
    simp [hasPrefix, List.isPrefixOf, Ne.symm hdot]
  have h3 : hasPrefix (c :: rest) ['.'] = false := by
    simp [hasPrefix, List.isPrefixOf, Ne.symm hdot]
  simp only [workerStep, splitN2_append '|' num text hnum, Outcome.index, List.get?,
    Outcome.bind, htext, h1, h2, h3]
  simp

theorem toNat_ofNat_valid (n : Nat) (h : n.isValidChar) : (Char.ofNat n).toNat = n := by
  unfold Char.ofNat
  rw [dif_pos h]
  rfl

theorem isAsciiLetter_lt (c : Char) (h : isAsciiLetter c = true) : c.toNat < 128 := by
  simp only [isAsciiLetter, Bool.or_eq_true, Bool.and_eq_true, decide_eq_true_eq] at h
  have hZ : 'Z'.toNat = 90 := rfl
  have hz : 'z'.toNat = 122 := rfl
  omega

/-- C7. A component-instance line whose first character is none of
`r c l m R C L M` is an error of `parseComponent`: no Component is returned;
the worker step sends exactly one diagnostic, of severity ERROR, and leaves
the netlist (its Components in particular) as it was.  When the line (free of
newlines) begins with a designator, an ASCII letter followed by word
characters, and has at least two further tokens, the message is `unsupported
component type: ` followed by the upper-cased first character. -/
theorem parseComponent_unsupported (up : Char → Char) (line : List Char) (c : Char)
    (rest : List Char) (hline : line = c :: rest)
    (hc : c ∉ ['r', 'c', 'l', 'm', 'R', 'C', 'L', 'M']) :
    (∃ msg, parseComponent line = .error msg ∧
      (c ≠ '*' → c ≠ '.' → ∀ (p : Parser) (num text : List Char), '|' ∉ num →
        trimSpace text = line →
        workerStep up p (num ++ '|' :: text) =
          .ok ⟨p.Netlist, p.errorChan ++ [⟨atoi num, msg, "ERROR"⟩]⟩)) ∧
    (∀ (w sp1 n1 sp2 n2 tail : List Char),
      rest = w ++ (sp1 ++ (n1 ++ (sp2 ++ (n2 ++ tail)))) →
      isAsciiLetter c = true → (∀ x ∈ w, isDigit x = true ∨ x = '_' ∨ isAsciiLetter x = true) →
      Spaces sp1 → Token n1 → Spaces sp2 → Token n2 → SpaceStart tail → '\n' ∉ line →
      parseComponent line =
        .error ("unsupported component type: " ++ String.singleton (toUpperRune up c))) := by
  subst hline
  simp only [List.mem_cons, List.mem_singleton, List.not_mem_nil, or_false, not_or] at hc
  obtain ⟨h1, h2, h3, h4, h5, h6, h7, h8⟩ := hc
  -- the outcome of the type switch on the first byte
  have hswitch : ∀ (m0 w t2 t3 g4 g5 g6 : List Char),
      componentRe.findStringSubmatch 6 (c :: rest) = some [m0, c :: w, t2, t3, g4, g5, g6] →
      parseComponent (c :: rest) =
        .error ("unsupported component type: " ++
          String.mk (if c.toNat < 128 then [toUpperRune id c] else [Char.ofNat 0xFFFD])) := by
    intro m0 w t2 t3 g4 g5 g6 hf
    rw [parseComponent_found _ _ _ _ _ _ _ _ hf]
    by_cases hlt : c.toNat < 128
    · have hne : ∀ d : Char, d ∈ ['R', 'C', 'L', 'M'] → toUpperRune id c ≠ d := by
        intro d hd heq
        simp only [toUpperRune, if_pos hlt] at heq
        by_cases hlow : 'a'.toNat ≤ c.toNat ∧ c.toNat ≤ 'z'.toNat
        · rw [if_pos hlow] at heq
          have hn : c.toNat - 32 = d.toNat := by
            have h := congrArg Char.toNat heq
            have hv : (c.toNat - 32).isValidChar := by
              left
              have hz : 'z'.toNat = 122 := rfl
              omega
            rwa [toNat_ofNat_valid _ hv] at h
          have ha : 'a'.toNat = 97 := rfl
          have hcn : c.toNat = d.toNat + 32 := by omega
          simp only [List.mem_cons, List.mem_singleton, List.not_mem_nil, or_false] at hd
          rcases hd with rfl | rfl | rfl | rfl
          · exact h1 (char_eq_of_toNat c 'r' hcn)
          · exact h2 (char_eq_of_toNat c 'c' hcn)
          · exact h3 (char_eq_of_toNat c 'l' hcn)
          · exact h4 (char_eq_of_toNat c 'm' hcn)
        · rw [if_neg hlow] at heq
          simp only [List.mem_cons, List.mem_singleton, List.not_mem_nil, or_false] at hd
          rcases hd with rfl | rfl | rfl | rfl
          · exact h5 heq
          · exact h6 heq
          · exact h7 heq
          · exact h8 heq
      simp only [upperFirstByte, if_pos hlt, Outcome.bind, List.cons.injEq, and_true,
        hne 'R' (by simp), hne 'C' (by simp), hne 'L' (by simp), hne 'M' (by simp), or_self,
        if_false]
    · have hne : ∀ d : Char, d ∈ ['R', 'C', 'L', 'M'] → Char.ofNat 0xFFFD ≠ d := by
        intro d hd
        simp only [List.mem_cons, List.mem_singleton, List.not_mem_nil, or_false] at hd
        rcases hd with rfl | rfl | rfl | rfl <;> decide
      simp only [upperFirstByte, if_neg hlt, Outcome.bind, List.cons.injEq, and_true,
        hne 'R' (by simp), hne 'C' (by simp), hne 'L' (by simp), hne 'M' (by simp), or_self,
        if_false]
  have hshape : ∀ found, componentRe.findStringSubmatch 6 (c :: rest) = some found →
      ∃ m0 w t2 t3 g4 g5 g6, found = [m0, c :: w, t2, t3, g4, g5, g6] := by
    intro found hf
    obtain ⟨c0, w, sp1, t2, sp2, t3, tail, g4, g5, g6, hl, hfound, -⟩ :=
      componentRe_shape _ found hf
    simp only [List.cons.injEq] at hl
    rw [← hl.1] at hfound
    exact ⟨_, w, t2, t3, g4, g5, g6, hfound⟩
  constructor
  · have herr : ∃ msg, parseComponent (c :: rest) = .error msg := by
      cases hf : componentRe.findStringSubmatch 6 (c :: rest) with
      | none => exact ⟨_, parseComponent_nomatch _ hf⟩
      | some found =>
        obtain ⟨m0, w, t2, t3, g4, g5, g6, rfl⟩ := hshape found hf
        exact ⟨_, hswitch _ _ _ _ _ _ _ hf⟩
    obtain ⟨msg, hmsg⟩ := herr
    refine ⟨msg, hmsg, ?_⟩
    intro hstar hdot p num text hnum htext
    rw [workerStep_component up p num text c rest hnum htext hstar hdot, hmsg]
    rfl
  · intro w sp1 n1 sp2 n2 tail hrest hlet hw hsp1 hn1 hsp2 hn2 htail hnl
    have hlet1 : reLetterFold c = true := by simp [reLetterFold, hlet]
    have hw1 : ∀ x ∈ w, reWordFold x = true := by
      intro x hx
      rcases hw x hx with h | h | h
      · simp [reWordFold, h]
      · simp [reWordFold, h]
      · simp [reWordFold, reLetterFold, h]
    have htl : tail = [] ∨ ∃ sp g, tail = sp ++ g ∧ Spaces sp ∧ ∀ x ∈ g, reAny x = true := by
      rcases htail with h | ⟨a, b, hab, ha⟩
      · exact Or.inl h
      · refine Or.inr ⟨[a], b, by simp [hab], ⟨by simp, by simpa using ha⟩, ?_⟩
        intro x hx
        have hmem : x ∈ c :: rest := by
          rw [hrest, hab]
          simp [hx]
        have hxn : x ≠ '\n' := fun h => hnl (h ▸ hmem)
        simp [reAny, hxn]
    obtain ⟨found, hf⟩ := componentRe_exists (c :: rest) c w sp1 n1 sp2 n2 tail
      (by rw [hrest]) hlet1 hw1 hsp1 hn1 hsp2 hn2 htl
    obtain ⟨m0, w2, t2, t3, g4, g5, g6, rfl⟩ := hshape found hf
    rw [hswitch _ _ _ _ _ _ _ hf]
    have hlt := isAsciiLetter_lt c hlet
    simp only [if_pos hlt, toUpperRune]
    rfl

set_option maxRecDepth 100000 in
/-- C7 at the line `Q1 c b e`, which the reader sends as `7|Q1 c b e`. -/
theorem parseComponent_unsupported_witness :
    parseComponent "Q1 c b e".toList =
      .error ("unsupported component type: " ++ String.singleton (toUpperRune id 'Q')) ∧
    ∃ msg, parseComponent "Q1 c b e".toList = .error msg ∧
      workerStep id NewParser ("7".toList ++ '|' :: "Q1 c b e".toList) =
        .ok ⟨NewParser.Netlist, NewParser.errorChan ++ [⟨atoi "7".toList, msg, "ERROR"⟩]⟩ :=
  ⟨(parseComponent_unsupported id "Q1 c b e".toList 'Q' "1 c b e".toList (by decide)
      (by decide)).2 ['1'] [' '] ['c'] [' '] ['b'] " e".toList (by decide) (by decide)
      (by decide) ⟨by decide, by decide⟩ ⟨by decide, by decide⟩ ⟨by decide, by decide⟩
      ⟨by decide, by decide⟩ (Or.inr ⟨' ', ['e'], rfl, by decide⟩) (by decide),
   match (parseComponent_unsupported id "Q1 c b e".toList 'Q' "1 c b e".toList (by decide)
      (by decide)).1 with
   | ⟨msg, h1, h2⟩ =>
     ⟨msg, h1, h2 (by decide) (by decide) NewParser "7".toList "Q1 c b e".toList (by decide)
       (by decide)⟩⟩

/-! ### `parseModel` and the routing of model cards -/

set_option maxRecDepth 100000 in
/-- C8, the code at the failing input: a model card with a parameter is
rejected, because the pattern requires the end of the text right after the
model type; only a card without parameters is accepted. -/
theorem parseModel_rejects_parameters :
    parseModel ".model nmos NMOS vto=0.7".toList = .error "invalid model syntax" ∧
    parseModel ".model nmos NMOS".toList = .ok ⟨"nmos".toList, "NMOS".toList, []⟩ := by
  constructor <;> decide

theorem search_sound (r : Re) (groups : Nat) (text : List Char) :
    ∀ (rest : List Char) (found : List (List Char)), r.search groups text rest = some found →
      ∃ rest1, r.matchAt groups text rest1 = some found := by
  intro rest
  induction rest with
  | nil =>
    intro found h
    exact ⟨[], h⟩
  | cons c t ih =>
    intro found h
    simp only [Re.search] at h
    cases hm : r.matchAt groups text (c :: t) with
    | some m =>
      rw [hm] at h
      exact ⟨c :: t, by rw [hm, ← h]⟩
    | none =>
      rw [hm] at h
      exact ih found h

/-- Shape of every successful `FindStringSubmatch` of the model pattern: the
third group is empty, because the pattern asks for the end of the text before
it. -/
theorem modelRe_shape (line : List Char) (found : List (List Char))
    (h : modelRe.findStringSubmatch 3 line = some found) :
    ∃ m0 g1 g2, found = [m0, g1, g2, []] := by
  obtain ⟨rest1, hm⟩ := search_sound modelRe 3 line line found h
  unfold Re.matchAt at hm
  obtain ⟨s1, hM, hk⟩ := Re.run_sound line modelRe _ _ _ hm
  simp only [modelRe, Re.Matches] at hM
  obtain ⟨sa, ⟨-, -, -, hca⟩, sb, ⟨-, -, -, hcb⟩, sc, ⟨-, -, -, hcc⟩, sd, ⟨-, -, -, hcd⟩,
    se, ⟨-, -, -, hce⟩, sf, ⟨-, -, -, hcf⟩, sg, ⟨-, -, -, -, -, hcg⟩,
    sh, ⟨sh1, ⟨-, -, -, -, -, hch1⟩, rfl⟩, si, ⟨-, -, -, -, -, hci⟩,
    sj, ⟨sj1, ⟨-, -, -, -, -, hcj1⟩, rfl⟩, sk, ⟨-, -, -, hck⟩,
    sl, ⟨hrl, rfl⟩, sm, ⟨sm1, ⟨pre, -, hrm, hcm1⟩, rfl⟩, -, rfl⟩ := hM
  simp only at hci hck hcm1 hrm
  rw [hrl] at hrm
  have hpre : pre = [] := (List.append_eq_nil.1 hrm.symm).1
  simp only [Option.some.injEq] at hk
  rw [← hk, hcm1, hck, hcj1, hci, hch1, hcg, hcf, hce, hcd, hcc, hcb, hca, hrl]
  refine ⟨List.take (rest1.length - sm1.rest.length) rest1,
    List.take (sg.rest.length - sh1.rest.length) sg.rest,
    List.take (si.rest.length - sj1.rest.length) si.rest, ?_⟩
  simp [List.replicate]

/-- No model card is ever returned with a parameter: the map `Params` of
every Model that `parseModel` returns is empty. -/
theorem parseModel_params_empty (line : List Char) (m : Model)
    (h : parseModel line = .ok m) : m.Params = [] := by
  cases hf : modelRe.findStringSubmatch 3 line with
  | none =>
    simp only [parseModel, hf] at h
    exact absurd h (by simp)
  | some found =>
    obtain ⟨m0, g1, g2, rfl⟩ := modelRe_shape line found hf
    simp only [parseModel, hf, Outcome.index, List.get?, Outcome.bind] at h
    have hfd : fields [] = [] := rfl
    rw [hfd] at h
    simp only [modelParams, Outcome.ok.injEq] at h
    rw [← h]

set_option maxRecDepth 100000 in
/-- C9, the code at the failing input: the router tests the prefix `.model`
in lower case only.  The line `.MODEL nmos NMOS`, which `parseModel` itself
accepts, is routed to `parseCommand`: a Command of type `MODEL` is appended
and no Model is inserted. -/
theorem workerStep_upper_model_is_command :
    parseModel ".MODEL nmos NMOS".toList = .ok ⟨"nmos".toList, "NMOS".toList, []⟩ ∧
    workerStep id NewParser "1|.MODEL nmos NMOS".toList =
      .ok ⟨⟨[], [], [⟨"MODEL".toList, []⟩], []⟩, []⟩ ∧
    workerStep id NewParser "1|.model nmos NMOS".toList =
      .ok ⟨⟨[], [], [], [("nmos".toList, ⟨"nmos".toList, "NMOS".toList, []⟩)]⟩, []⟩ := by
  refine ⟨by decide, by decide, by decide⟩

/-! ### `parseCommand` -/

theorem GoMap.get_set {α : Type} (m : List (List Char × α)) (k k1 : List Char) (v : α) :
    GoMap.get (GoMap.set m k v) k1 = if k = k1 then some v else GoMap.get m k1 := by
  induction m with
  | nil => simp [GoMap.set, GoMap.get]
  | cons kv t ih =>
    obtain ⟨k2, v2⟩ := kv
    by_cases h2 : k2 = k
    · subst h2
      by_cases h1 : k2 = k1 <;> simp [GoMap.set, GoMap.get, h1]
    · by_cases h1 : k = k1
      · subst h1
        simp [GoMap.set, GoMap.get, h2, ih]
      · simp [GoMap.set, GoMap.get, h2, ih, h1]

theorem cut_isSome_of_mem (sep : Char) (s : List Char) (h : sep ∈ s) :
    ∃ a b, cut sep s = some (a, b) := by
  induction s with
  | nil => simp at h
  | cons c t ih =>
    by_cases hc : c = sep
    · exact ⟨[], t, by simp [cut, hc]⟩
    · have ht : sep ∈ t := by
        rcases List.mem_cons.1 h with h | h
        · exact absurd h.symm hc
        · exact h
      obtain ⟨a, b, hab⟩ := ih ht
      exact ⟨c :: a, b, by simp [cut, hc, hab]⟩

theorem cut_eq_none_of_not_mem (sep : Char) (s : List Char) (h : sep ∉ s) :
    cut sep s = none := by
  induction s with
  | nil => rfl
  | cons c t ih =>
    have hc : c ≠ sep := fun e => h (by rw [e]; exact List.mem_cons_self _ _)
    have ht := ih (fun e => h (List.mem_cons_of_mem _ e))
    simp [cut, hc, ht]

/-- The option loop never fails, and the map it returns binds each key as the
last token for that key says, or as the map it started from. -/
theorem commandOptions_spec (rest : List (List Char)) :
    ∀ opts0 : List (List Char × List Char), ∃ opts, commandOptions rest opts0 = .ok opts ∧
      ∀ k, GoMap.get opts k =
        match lastBinding rest k with
        | some v => some v
        | none => GoMap.get opts0 k := by
  induction rest with
  | nil =>
    intro opts0
    exact ⟨opts0, rfl, fun k => rfl⟩
  | cons tok rest ih =>
    intro opts0
    by_cases hmem : '=' ∈ tok
    · obtain ⟨a, b, hab⟩ := cut_isSome_of_mem '=' tok hmem
      obtain ⟨opts, hopts, hget⟩ := ih (GoMap.set opts0 a b)
      refine ⟨opts, ?_, ?_⟩
      · simp only [commandOptions, if_pos hmem, splitN2, hab, Outcome.index, List.get?,
          Outcome.bind]
        exact hopts
      · intro k
        rw [hget k]
        simp only [lastBinding, hab, GoMap.get_set]
        cases lastBinding rest k with
        | some v => rfl
        | none => by_cases hak : a = k <;> simp [hak]
    · obtain ⟨opts, hopts, hget⟩ := ih opts0
      refine ⟨opts, ?_, ?_⟩
      · simp only [commandOptions, if_neg hmem]
        exact hopts
      · intro k
        rw [hget k]
        simp only [lastBinding, cut_eq_none_of_not_mem '=' tok hmem]
        cases lastBinding rest k with
        | some v => rfl
        | none => rfl

/-- The keys that the tokens bind: a key is bound exactly when some token
contains `=` and has the key as its text before the first `=`. -/
theorem lastBinding_isSome_iff (rest : List (List Char)) (k : List Char) :
    (lastBinding rest k).isSome = true ↔ ∃ tok ∈ rest, ∃ v, cut '=' tok = some (k, v) := by
  induction rest with
  | nil => simp [lastBinding]
  | cons tok rest ih =>
    simp only [lastBinding, List.mem_cons, exists_eq_or_imp]
    cases hlb : lastBinding rest k with
    | some v =>
      rw [hlb] at ih
      simp only [Option.isSome_some, true_iff] at ih
      simp only [Option.isSome_some, true_iff]
      exact Or.inr ih
    | none =>
      rw [hlb] at ih
      simp only [Option.isSome_none, Bool.false_eq_true, false_iff] at ih
      cases hc : cut '=' tok with
      | none => simp [ih]
      | some ab =>
        obtain ⟨a, b⟩ := ab
        by_cases hak : a = k
        · subst hak
          simp
        · simp [hak, ih]

/-- C10. On a directive line whose keyword (the first field after the leading
`.`) upper-cases to `TRAN`, `AC` or `DC`, `parseCommand` succeeds; Type is the
upper-cased keyword; a key is in Options exactly when a later token contains
`=` and has that key before its first `=`; and each key is bound to the raw
text after the first `=` of the last such token.  Tokens without `=` bind
nothing, and the values are the strings themselves. -/
theorem parseCommand_analysis (up : Char → Char) (line kw : List Char)
    (rest : List (List Char)) (hfields : fields (trimPrefix line ['.']) = kw :: rest)
    (hkw : toUpper up kw = "TRAN".toList ∨ toUpper up kw = "AC".toList ∨
      toUpper up kw = "DC".toList) :
    ∃ opts, parseCommand up line = .ok ⟨toUpper up kw, opts⟩ ∧
      (∀ k, GoMap.get opts k = lastBinding rest k) ∧
      (∀ k, (GoMap.get opts k).isSome = true ↔
        ∃ tok ∈ rest, ∃ v, cut '=' tok = some (k, v)) := by
  obtain ⟨opts, hopts, hget⟩ := commandOptions_spec rest []
  have hval : ∀ k, GoMap.get opts k = lastBinding rest k := by
    intro k
    rw [hget k]
    cases lastBinding rest k with
    | some v => rfl
    | none => rfl
  refine ⟨opts, ?_, hval, ?_⟩
  · simp only [parseCommand, hfields, if_pos hkw, hopts, Outcome.bind]
  · intro k
    rw [hval k]
    exact lastBinding_isSome_iff rest k

/-- C10 at the line `.tran a=b c d=e=f a=z`: the token `c` binds nothing,
`d` is bound to `e=f`, and the second binding of `a` wins. -/
theorem parseCommand_analysis_witness :
    ∃ opts, parseCommand id ".tran a=b c d=e=f a=z".toList = .ok ⟨"TRAN".toList, opts⟩ ∧
      GoMap.get opts "a".toList = some "z".toList ∧
      GoMap.get opts "d".toList = some "e=f".toList ∧
      GoMap.get opts "c".toList = none :=
  match parseCommand_analysis id ".tran a=b c d=e=f a=z".toList "tran".toList
      ["a=b".toList, "c".toList, "d=e=f".toList, "a=z".toList] (by decide)
      (Or.inl (by decide)) with
  | ⟨opts, h1, h2, _⟩ =>
    ⟨opts, h1, (h2 _).trans (by decide), (h2 _).trans (by decide), (h2 _).trans (by decide)⟩

/-- C11. On a directive line whose keyword (the first field after the leading
`.`) does not upper-case to `TRAN`, `AC` or `DC`, `parseCommand` does not
fail: it returns the Command whose Type is the upper-cased keyword and whose
Options map is empty, whatever the tokens after the keyword are. -/
theorem parseCommand_other_keyword (up : Char → Char) (line kw : List Char)
    (rest : List (List Char)) (hfields : fields (trimPrefix line ['.']) = kw :: rest)
    (hkw : ¬ (toUpper up kw = "TRAN".toList ∨ toUpper up kw = "AC".toList ∨
      toUpper up kw = "DC".toList)) :
    parseCommand up line = .ok ⟨toUpper up kw, []⟩ := by
  simp only [parseCommand, hfields, if_neg hkw]

/-- C11 at the line `.option a=b c`: the token `a=b` is not recorded. -/
theorem parseCommand_other_keyword_witness :
    parseCommand id ".option a=b c".toList = .ok ⟨toUpper id "option".toList, []⟩ :=
  parseCommand_other_keyword id ".option a=b c".toList "option".toList
    ["a=b".toList, "c".toList] (by decide) (by decide)

/-! ### `ParseFile` -/

theorem semanticCheckLoop_closed (comps : List Component) (p : Parser) :
    semanticCheckLoop true comps p = .panic ∨ semanticCheckLoop true comps p = .ok p := by
  induction comps with
  | nil => exact Or.inr rfl
  | cons comp rest ih =>
    by_cases hm : comp.Model ≠ []
    · cases hg : GoMap.get p.Netlist.Models comp.Model with
      | some m =>
        simp only [semanticCheckLoop, if_pos hm, hg]
        exact ih
      | none =>
        left
        simp [semanticCheckLoop, hm, hg, Parser.send, Outcome.bind]
    · simp only [semanticCheckLoop, if_neg hm]
      exact ih

/-- Run after `close(p.errorChan)`, the semantic check never adds a
diagnostic: it panics exactly when some component names a model that is not
defined, and otherwise changes nothing. -/
theorem semanticCheck_closed (p : Parser) :
    (p.semanticCheck true = .panic ↔
      ∃ comp ∈ p.Netlist.Components, comp.Model ≠ [] ∧
        GoMap.get p.Netlist.Models comp.Model = none) ∧
    (p.semanticCheck true = .panic ∨ p.semanticCheck true = .ok p) := by
  refine ⟨?_, semanticCheckLoop_closed _ p⟩
  unfold Parser.semanticCheck
  generalize p.Netlist.Components = comps
  induction comps with
  | nil => simp [semanticCheckLoop]
  | cons comp rest ih =>
    by_cases hm : comp.Model ≠ []
    · cases hg : GoMap.get p.Netlist.Models comp.Model with
      | some m =>
        simp only [semanticCheckLoop, if_pos hm, hg, List.mem_cons, exists_eq_or_imp, ih]
        simp [hg]
      | none =>
        simp only [semanticCheckLoop, if_pos hm, hg, List.mem_cons, exists_eq_or_imp]
        simp [Parser.send, Outcome.bind, hm]
    · simp only [semanticCheckLoop, if_neg hm, List.mem_cons, exists_eq_or_imp, ih]
      simp [hm]

/-- The result of `ParseFile` from the state after the worker loop and the
outcome of the semantic check. -/
theorem ParseFile_of_run (up : Char → Char) (drained : Nat) (texts : List (List Char))
    (p1 : Parser) (h1 : workerRun up NewParser (readerLines 0 texts) = .ok p1) :
    ParseFile up drained texts =
      (p1.semanticCheck true).bind fun p2 =>
        .ok ⟨p2.Netlist, p2.errorChan.take (max drained (p2.errorChan.length - 101))⟩ := by
  simp only [ParseFile, h1, Outcome.bind]

set_option maxRecDepth 100000 in
/-- C12, the code at the failing input.  `ParseFile` closes `errorChan` and
then calls `semanticCheck`, which reports on that channel: on the one-line
file `M1 d g s b nmos`, whose model is not defined, the send panics and no
diagnostic is recorded.  When the model is defined the check completes and
adds nothing. -/
theorem ParseFile_undefined_model_panics :
    (∀ drained, ParseFile id drained ["M1 d g s b nmos".toList] = .panic) ∧
    (∀ drained,
      ParseFile id drained [".model nmos NMOS".toList, "M1 d g s b nmos".toList] =
        .ok ⟨⟨[], [⟨2, ['M'], [['d'], ['g'], ['s'], ['b']], "nmos".toList, []⟩], [],
              [("nmos".toList, ⟨"nmos".toList, "NMOS".toList, []⟩)]⟩, []⟩) := by
  constructor
  · intro drained
    rw [ParseFile_of_run id drained _
      ⟨⟨[], [⟨1, ['M'], [['d'], ['g'], ['s'], ['b']], "nmos".toList, []⟩], [], []⟩, []⟩
      (by decide)]
    rfl
  · intro drained
    rw [ParseFile_of_run id drained _
      ⟨⟨[], [⟨2, ['M'], [['d'], ['g'], ['s'], ['b']], "nmos".toList, []⟩], [],
        [("nmos".toList, ⟨"nmos".toList, "NMOS".toList, []⟩)]⟩, []⟩ (by decide)]
    have h2 : Parser.semanticCheck true
        ⟨⟨[], [⟨2, ['M'], [['d'], ['g'], ['s'], ['b']], "nmos".toList, []⟩], [],
          [("nmos".toList, ⟨"nmos".toList, "NMOS".toList, []⟩)]⟩, []⟩ = .ok
        ⟨⟨[], [⟨2, ['M'], [['d'], ['g'], ['s'], ['b']], "nmos".toList, []⟩], [],
          [("nmos".toList, ⟨"nmos".toList, "NMOS".toList, []⟩)]⟩, []⟩ := by decide
    rw [h2]
    simp [Outcome.bind]

set_option maxRecDepth 100000 in
/-- C13, the code at the failing input.  The title is
`strings.TrimPrefix(content, "* ")`: the marker is removed only together with
a space after it.  The first comment line `*Title` gives the title `*Title`,
marker included; `* Title` gives `Title`. -/
theorem workerStep_title_keeps_marker :
    workerStep id NewParser "1|*Title".toList =
      .ok ⟨⟨"*Title".toList, [], [], []⟩, []⟩ ∧
    workerStep id NewParser "1|* Title".toList =
      .ok ⟨⟨"Title".toList, [], [], []⟩, []⟩ ∧
    (∀ drained, ParseFile id drained ["*Title".toList, "R1 a b 1".toList] =
      .ok ⟨⟨"*Title".toList, [⟨2, ['R'], [['a'], ['b']], [],
        [("value".toList, ⟨false, 1023, 0⟩)]⟩], [], []⟩, []⟩) := by
  refine ⟨by decide, by decide, ?_⟩
  intro drained
  rw [ParseFile_of_run id drained _
    ⟨⟨"*Title".toList, [⟨2, ['R'], [['a'], ['b']], [],
      [("value".toList, ⟨false, 1023, 0⟩)]⟩], [], []⟩, []⟩ (by decide)]
  have h2 : Parser.semanticCheck true
      ⟨⟨"*Title".toList, [⟨2, ['R'], [['a'], ['b']], [],
        [("value".toList, ⟨false, 1023, 0⟩)]⟩], [], []⟩, []⟩ = .ok
      ⟨⟨"*Title".toList, [⟨2, ['R'], [['a'], ['b']], [],
        [("value".toList, ⟨false, 1023, 0⟩)]⟩], [], []⟩, []⟩ := by decide
  rw [h2]
  simp [Outcome.bind]

/-- C17. `parseValue` looks at the first character after the numeric prefix
only: for a prefix `p` of digits, `.` and `-`, a character `c` that is none of
these, and any `rest`, the token `p ++ c ++ rest` has the result, value or
error, of `p ++ c`. -/
theorem parseValue_first_suffix_only (p rest : List Char) (c : Char)
    (hp : ∀ ch ∈ p, isNumChar ch = true) (hc : isNumChar c = false) :
    parseValue (p ++ c :: rest) = parseValue (p ++ [c]) := by
  have h1 : scanValue (c :: rest) = ([], c.toNat % 256) := by simp [scanValue, hc]
  have h2 : scanValue [c] = ([], c.toNat % 256) := by simp [scanValue, hc]
  simp only [parseValue, scanValue_append p _ hp, h1, h2]

/-- C17 at the token `1Meg`, which decodes like `1M`. -/
theorem parseValue_first_suffix_only_witness :
    parseValue ("1".toList ++ 'M' :: "eg".toList) = parseValue ("1".toList ++ ['M']) :=
  parseValue_first_suffix_only "1".toList "eg".toList 'M' (by decide) (by decide)

/-! ### The worker step as a contribution applied to the state -/

/-- The worker step computes the contribution of the line, which does not
depend on the shared state, and applies it. -/
theorem workerStep_eq_apply (up : Char → Char) (p : Parser) (line : List Char) :
    workerStep up p line = (lineEffect up line).bind fun e => .ok (p.apply e) := by
  simp only [workerStep, lineEffect]
  cases h0 : Outcome.index (splitN2 '|' line) 0 with
  | error e => rfl
  | panic => rfl
  | ok p0 =>
    cases h1 : Outcome.index (splitN2 '|' line) 1 with
    | error e => rfl
    | panic => rfl
    | ok p1 =>
      simp only [Outcome.bind]
      by_cases hc : trimSpace p1 = []
      · simp [hc, hasPrefix, Parser.apply]
      · by_cases hs : hasPrefix (trimSpace p1) ['*'] = true
        · by_cases ht : p.Netlist.Title = [] <;> simp [hc, hs, ht, Parser.apply]
        · by_cases hm : hasPrefix (trimSpace p1) ".model".toList = true
          · simp only [hc, hs, hm, false_or, if_false, if_true]
            cases parseModel (trimSpace p1) <;> simp [Parser.apply, Parser.report]
          · by_cases hd : hasPrefix (trimSpace p1) ['.'] = true
            · simp only [hc, hs, hm, hd, false_or, if_false, if_true]
              cases parseCommand up (trimSpace p1) <;> simp [Parser.apply, Parser.report]
            · simp only [hc, hs, hm, hd, false_or, if_false]
              cases parseComponent (trimSpace p1) <;> simp [Parser.apply, Parser.report]

/-! ### Line numbers -/

theorem lineEffect_encoded (up : Char → Char) (num text : List Char) (hnum : '|' ∉ num) :
    lineEffect up (num ++ '|' :: text) =
      if trimSpace text = [] then .ok .skip
      else if hasPrefix (trimSpace text) ['*'] then
        .ok (.title (trimPrefix (trimSpace text) ['*', ' ']))
      else if hasPrefix (trimSpace text) ".model".toList then
        match parseModel (trimSpace text) with
        | .error err => .ok (.diagnostic ⟨atoi num, err, "ERROR"⟩)
        | .panic => .panic
        | .ok m => .ok (.model m)
      else if hasPrefix (trimSpace text) ['.'] then
        match parseCommand up (trimSpace text) with
        | .error err => .ok (.diagnostic ⟨atoi num, err, "ERROR"⟩)
        | .panic => .panic
        | .ok c => .ok (.command c)
      else
        match parseComponent (trimSpace text) with
        | .error err => .ok (.diagnostic ⟨atoi num, err, "ERROR"⟩)
        | .panic => .panic
        | .ok c => .ok (.component { c with LineNum := atoi num }) := by
  simp only [lineEffect, splitN2_append '|' num text hnum, Outcome.index, List.get?,
    Outcome.bind]

theorem digitChar_toNat (d : Nat) (hd : d < 10) :
    (Char.ofNat ('0'.toNat + d)).toNat = 48 + d := by
  have h0 : '0'.toNat = 48 := rfl
  rw [h0]
  exact toNat_ofNat_valid _ (Or.inl (by omega))

theorem digitChar_isDigit (d : Nat) (hd : d < 10) :
    isDigit (Char.ofNat ('0'.toNat + d)) = true := by
  have h9 : '9'.toNat = 57 := rfl
  have h := digitChar_toNat d hd
  simp only [isDigit, h, h9, Bool.and_eq_true, decide_eq_true_eq]
  have h0 : '0'.toNat = 48 := rfl
  omega

theorem decDigits_all (f n : Nat) (acc : List Char) (hacc : ∀ c ∈ acc, isDigit c = true) :
    ∀ c ∈ decDigits f n acc, isDigit c = true := by
  induction f generalizing n acc with
  | zero => exact hacc
  | succ f ih =>
    have hd : isDigit (Char.ofNat ('0'.toNat + n % 10)) = true :=
      digitChar_isDigit _ (Nat.mod_lt _ (by decide))
    have hacc1 : ∀ c ∈ Char.ofNat ('0'.toNat + n % 10) :: acc, isDigit c = true := by
      intro c hc
      rcases List.mem_cons.1 hc with rfl | hc
      · exact hd
      · exact hacc c hc
    unfold decDigits
    by_cases h : n / 10 = 0
    · rw [if_pos h]
      exact hacc1
    · rw [if_neg h]
      exact ih _ _ hacc1

theorem decDigits_ne_nil_of_acc (f n : Nat) (acc : List Char) (hacc : acc ≠ []) :
    decDigits f n acc ≠ [] := by
  induction f generalizing n acc with
  | zero => exact hacc
  | succ f ih =>
    unfold decDigits
    by_cases h : n / 10 = 0
    · simp [h]
    · rw [if_neg h]
      exact ih _ _ (by simp)

theorem itoa_ne_nil (n : Nat) : itoa n ≠ [] := by
  unfold itoa decDigits
  by_cases h : n / 10 = 0
  · simp [h]
  · rw [if_neg h]
    exact decDigits_ne_nil_of_acc _ _ _ (by simp)

theorem itoa_all_digits (n : Nat) : ∀ c ∈ itoa n, isDigit c = true :=
  decDigits_all _ _ [] (by simp)

/-- The number that `strconv.Atoi` reads from a run of digits. -/
theorem foldl_digits (l : List Char) (a : Nat) :
    l.foldl (fun a c => a * 10 + (c.toNat - '0'.toNat)) a =
      a * 10 ^ l.length + l.foldl (fun a c => a * 10 + (c.toNat - '0'.toNat)) 0 := by
  induction l generalizing a with
  | nil => simp
  | cons c t ih =>
    simp only [List.foldl_cons, List.length_cons]
    rw [ih (a * 10 + (c.toNat - '0'.toNat)), ih (0 * 10 + (c.toNat - '0'.toNat))]
    ring

theorem decDigits_value (f n : Nat) (acc : List Char) (hf : n < f) :
    (decDigits f n acc).foldl (fun a c => a * 10 + (c.toNat - '0'.toNat)) 0 =
      n * 10 ^ acc.length + acc.foldl (fun a c => a * 10 + (c.toNat - '0'.toNat)) 0 := by
  induction f generalizing n acc with
  | zero => omega
  | succ f ih =>
    have hd : (Char.ofNat ('0'.toNat + n % 10)).toNat - '0'.toNat = n % 10 := by
      rw [digitChar_toNat _ (Nat.mod_lt _ (by decide))]
      have h0 : '0'.toNat = 48 := rfl
      omega
    unfold decDigits
    by_cases h : n / 10 = 0
    · rw [if_pos h]
      simp only [List.foldl_cons]
      rw [foldl_digits acc, hd]
      have hn : n % 10 = n := by omega
      rw [hn]
      ring
    · rw [if_neg h]
      rw [ih (n / 10) _ (by omega)]
      simp only [List.foldl_cons, List.length_cons]
      rw [foldl_digits acc (0 * 10 + _), hd]
      have hn : n = 10 * (n / 10) + n % 10 := (Nat.div_add_mod n 10).symm
      generalize n / 10 = q at hn ⊢
      generalize n % 10 = r at hn ⊢
      subst hn
      ring

theorem itoa_value (n : Nat) :
    (itoa n).foldl (fun a c => a * 10 + (c.toNat - '0'.toNat)) 0 = n := by
  unfold itoa
  rw [decDigits_value (n + 1) n [] (by omega)]
  simp

theorem isDigit_ne (c d : Char) (hc : isDigit c = true) (hd : isDigit d = false) : c ≠ d := by
  intro h
  rw [h, hd] at hc
  exact absurd hc (by simp)

theorem atoi_digits (ds : List Char) (hne : ds ≠ []) (hall : ∀ c ∈ ds, isDigit c = true) :
    atoi ds =
      if 2 ^ 63 ≤ ds.foldl (fun a c => a * 10 + (c.toNat - '0'.toNat)) 0 then (2 ^ 63 - 1 : Int)
      else ((ds.foldl (fun a c => a * 10 + (c.toNat - '0'.toNat)) 0 : Nat) : Int) := by
  cases ds with
  | nil => exact absurd rfl hne
  | cons c t =>
    have hc := hall c (List.mem_cons_self _ _)
    have h1 : c ≠ '-' := isDigit_ne c '-' hc (by decide)
    have h2 : c ≠ '+' := isDigit_ne c '+' hc (by decide)
    have hall1 : (c :: t).all isDigit = true := by
      rw [List.all_eq_true]
      exact hall
    unfold atoi
    split
    · rename_i heq
      simp only [List.cons.injEq] at heq
      exact absurd heq.1 h1
    · split
      · rename_i heq
        simp only [List.cons.injEq] at heq
        exact absurd heq.1 h1
      · rename_i heq
        simp only [List.cons.injEq] at heq
        exact absurd heq.1 h2
      · simp [hall1]

theorem itoa_no_bar (n : Nat) : '|' ∉ itoa n := by
  intro h
  have := itoa_all_digits n '|' h
  exact absurd this (by decide)

/-- The worker reads back the number that the reader wrote. -/
theorem atoi_itoa (n : Nat) (hn : n < 2 ^ 63) : atoi (itoa n) = (n : Int) := by
  rw [atoi_digits (itoa n) (itoa_ne_nil n) (itoa_all_digits n), itoa_value]
  rw [if_neg (by omega)]

theorem readerLines_get (texts : List (List Char)) :
    ∀ (n k : Nat) (text : List Char), texts.get? k = some text →
      (readerLines n texts).get? k = some (encodeLine (n + k + 1) text) := by
  induction texts with
  | nil =>
    intro n k text h
    simp at h
  | cons a rest ih =>
    intro n k text h
    cases k with
    | zero =>
      simp only [List.get?, Option.some.injEq] at h
      subst h
      rfl
    | succ k =>
      simp only [List.get?] at h
      simp only [readerLines, List.get?]
      rw [ih (n + 1) k text h]
      congr 2
      omega

/-- The contribution of the line that the reader sends for source line `i`
carries the number `i`. -/
theorem lineEffect_lineNum (up : Char → Char) (i : Nat) (t : List Char) (hmax : i < 2 ^ 63)
    (e : LineEffect) (h : lineEffect up (encodeLine i t) = .ok e) :
    (∀ c, e = .component c → c.LineNum = (i : Int)) ∧
    (∀ d, e = .diagnostic d → d.LineNum = (i : Int) ∧ d.Severity = "ERROR") := by
  unfold encodeLine at h
  rw [lineEffect_encoded up (itoa i) t (itoa_no_bar i), atoi_itoa i hmax] at h
  split at h
  · simp only [Outcome.ok.injEq] at h
    subst h
    simp
  · split at h
    · simp only [Outcome.ok.injEq] at h
      subst h
      simp
    · split at h
      · split at h
        · simp only [Outcome.ok.injEq] at h
          subst h
          simp
        · exact absurd h (by simp)
        · simp only [Outcome.ok.injEq] at h
          subst h
          simp
      · split at h
        · split at h
          · simp only [Outcome.ok.injEq] at h
            subst h
            simp
          · exact absurd h (by simp)
          · simp only [Outcome.ok.injEq] at h
            subst h
            simp
        · split at h
          · simp only [Outcome.ok.injEq] at h
            subst h
            simp
          · exact absurd h (by simp)
          · simp only [Outcome.ok.injEq] at h
            subst h
            simp

/-- C18. The reader numbers the lines from 1 and sends line `i` with text `t`
as `<i>|<t>`; the worker splits this back into the digits of `i` and `t`,
whatever `t` contains, and `Atoi` gives `i` (an `int`, below 2^63).  Hence a
Component that the step for source line `i` appends has LineNum `i`, and a
diagnostic that it sends has LineNum `i`. -/
theorem lineNumber_roundtrip (up : Char → Char) (i : Nat) (t : List Char) (hi : 1 ≤ i)
    (hmax : i < 2 ^ 63) :
    splitN2 '|' (encodeLine i t) = [itoa i, t] ∧ atoi (itoa i) = (i : Int) ∧
    (∀ p p1 : Parser, workerStep up p (encodeLine i t) = .ok p1 →
      (∀ comp ∈ p1.Netlist.Components, comp ∈ p.Netlist.Components ∨ comp.LineNum = (i : Int)) ∧
      (∀ e ∈ p1.errorChan, e ∈ p.errorChan ∨ e.LineNum = (i : Int))) ∧
    (∀ (texts : List (List Char)) (text : List Char), texts.get? (i - 1) = some text →
      (readerLines 0 texts).get? (i - 1) = some (encodeLine i text)) := by
  refine ⟨splitN2_append '|' (itoa i) t (itoa_no_bar i), atoi_itoa i hmax, ?_, ?_⟩
  · intro p p1 h
    rw [workerStep_eq_apply] at h
    cases he : lineEffect up (encodeLine i t) with
    | error e =>
      rw [he] at h
      exact absurd h (by simp [Outcome.bind])
    | panic =>
      rw [he] at h
      exact absurd h (by simp [Outcome.bind])
    | ok e =>
      rw [he] at h
      simp only [Outcome.bind, Outcome.ok.injEq] at h
      obtain ⟨hcomp, hdiag⟩ := lineEffect_lineNum up i t hmax e he
      subst h
      cases e with
      | skip => exact ⟨fun c hc => Or.inl hc, fun d hd => Or.inl hd⟩
      | title t1 =>
        by_cases ht : p.Netlist.Title = [] <;>
          simp only [Parser.apply, ht, if_true, if_false] <;>
          exact ⟨fun c hc => Or.inl hc, fun d hd => Or.inl hd⟩
      | model m => exact ⟨fun c hc => Or.inl hc, fun d hd => Or.inl hd⟩
      | command c1 => exact ⟨fun c hc => Or.inl hc, fun d hd => Or.inl hd⟩
      | component c1 =>
        refine ⟨?_, fun d hd => Or.inl hd⟩
        intro c hc
        simp only [Parser.apply, List.mem_append, List.mem_singleton] at hc
        rcases hc with hc | rfl
        · exact Or.inl hc
        · exact Or.inr (hcomp c rfl)
      | diagnostic d1 =>
        refine ⟨fun c hc => Or.inl hc, ?_⟩
        intro d hd
        simp only [Parser.apply, List.mem_append, List.mem_singleton] at hd
        rcases hd with hd | rfl
        · exact Or.inl hd
        · exact Or.inr (hdiag d rfl).1
  · intro texts text h
    have := readerLines_get texts 0 (i - 1) text h
    rw [this]
    congr 2
    omega

set_option maxRecDepth 100000 in
/-- C18 at source line 3 with the text `R1 a|b c 10K`, which contains the
separator, and with the text `Q1 a b`, which is rejected. -/
theorem lineNumber_roundtrip_witness :
    splitN2 '|' (encodeLine 3 "R1 a|b c 10K".toList) = [itoa 3, "R1 a|b c 10K".toList] ∧
    atoi (itoa 3) = (3 : Int) ∧
    workerStep id NewParser (encodeLine 3 "R1 a|b c 10K".toList) =
      .ok ⟨⟨[], [⟨3, ['R'], ["a|b".toList, ['c']], [],
        [("value".toList, ⟨false, 1036, 993958511509504⟩)]⟩], [], []⟩, []⟩ ∧
    workerStep id NewParser (encodeLine 3 "Q1 a b".toList) =
      .ok ⟨⟨[], [], [], []⟩, [⟨3, "unsupported component type: Q", "ERROR"⟩]⟩ :=
  ⟨(lineNumber_roundtrip id 3 "R1 a|b c 10K".toList (by decide) (by decide)).1,
   (lineNumber_roundtrip id 3 "R1 a|b c 10K".toList (by decide) (by decide)).2.1,
   by decide, by decide⟩

/-! ### Trimmed lines and directives -/

theorem dropWhile_head (p : Char → Bool) (l : List Char) :
    l.dropWhile p = [] ∨ ∃ a t, l.dropWhile p = a :: t ∧ p a = false := by
  induction l with
  | nil => exact Or.inl rfl
  | cons c t ih =>
    by_cases hc : p c = true
    · simp only [List.dropWhile_cons, hc, if_true]
      exact ih
    · right
      refine ⟨c, t, by simp [List.dropWhile_cons, hc], by simpa using hc⟩

/-- A trimmed line is empty or ends with a character that is not white
space. -/
theorem trimSpace_last (s : List Char) :
    trimSpace s = [] ∨ ∃ init last, trimSpace s = init ++ [last] ∧ isSpace last = false := by
  unfold trimSpace
  rcases dropWhile_head isSpace (s.dropWhile isSpace).reverse with h | ⟨a, t, h, ha⟩
  · left
    rw [h]
    rfl
  · right
    exact ⟨t.reverse, a, by rw [h]; simp, ha⟩

theorem fieldsBy_ne_nil (sp : Char → Bool) (l : List Char) (x : Char) (hx : x ∈ l)
    (hsp : sp x = false) : fieldsBy sp l ≠ [] := by
  induction l with
  | nil => simp at hx
  | cons c t ih =>
    by_cases hc : sp c = true
    · rw [fieldsBy_cons_space sp c t hc]
      rcases List.mem_cons.1 hx with rfl | hxt
      · rw [hsp] at hc
        exact absurd hc (by simp)
      · exact ih hxt
    · have hcf : sp c = false := by simpa using hc
      cases t with
      | nil => simp [fieldsBy, hcf]
      | cons d u =>
        rw [fieldsBy]
        simp only [hcf, Bool.false_eq_true, if_false]
        by_cases hd : sp d = true
        · simp [hd]
        · simp only [hd, if_false]
          cases fieldsBy sp (d :: u) <;> simp

/-- The function `parseCommand` has one error, `empty command`, for a line
without fields; on any other line it returns a Command. -/
theorem parseCommand_total (up : Char → Char) (line : List Char) :
    (fields (trimPrefix line ['.']) = [] ∧ parseCommand up line = .error "empty command") ∨
    (fields (trimPrefix line ['.']) ≠ [] ∧ ∃ cmd, parseCommand up line = .ok cmd) := by
  cases hf : fields (trimPrefix line ['.']) with
  | nil =>
    left
    exact ⟨rfl, by simp only [parseCommand, hf]⟩
  | cons kw rest =>
    right
    refine ⟨by simp, ?_⟩
    by_cases hkw : toUpper up kw = "TRAN".toList ∨ toUpper up kw = "AC".toList ∨
        toUpper up kw = "DC".toList
    · obtain ⟨opts, hopts, -⟩ := commandOptions_spec rest []
      exact ⟨⟨toUpper up kw, opts⟩, by simp only [parseCommand, hf, if_pos hkw, hopts, Outcome.bind]⟩
    · exact ⟨⟨toUpper up kw, []⟩, by simp only [parseCommand, hf, if_neg hkw]⟩

theorem hasPrefix_singleton (s : List Char) (c : Char) (h : hasPrefix s [c] = true) :
    ∃ rest, s = c :: rest := by
  cases s with
  | nil => simp [hasPrefix, List.isPrefixOf] at h
  | cons a t =>
    simp only [hasPrefix, List.isPrefixOf, Bool.and_eq_true, beq_iff_eq] at h
    exact ⟨t, by rw [h.1]⟩

/-- C19. For a trimmed line that starts with `.`, `parseCommand` returns the
error `empty command` exactly when the line is `.` alone.  On every other such
line it returns a Command, and the worker step for a line that is not routed
to the model parser appends that Command and sends no diagnostic. -/
theorem parseCommand_empty_iff (up : Char → Char) (text : List Char)
    (hdot : hasPrefix (trimSpace text) ['.'] = true) :
    (parseCommand up (trimSpace text) = .error "empty command" ↔ trimSpace text = ['.']) ∧
    (trimSpace text ≠ ['.'] →
      ∃ cmd, parseCommand up (trimSpace text) = .ok cmd ∧
        (hasPrefix (trimSpace text) ".model".toList = false →
          ∀ (p : Parser) (num : List Char), '|' ∉ num →
            workerStep up p (num ++ '|' :: text) =
              .ok ⟨{ p.Netlist with Commands := p.Netlist.Commands ++ [cmd] }, p.errorChan⟩)) := by
  obtain ⟨rest, hrest⟩ := hasPrefix_singleton _ _ hdot
  have htp : trimPrefix (trimSpace text) ['.'] = rest := by
    rw [hrest]
    simp [trimPrefix, List.isPrefixOf]
  have hfields : fields rest = [] ↔ rest = [] := by
    constructor
    · intro hf
      by_contra hne
      rcases trimSpace_last text with h | ⟨init, last, h, hlast⟩
      · rw [h] at hrest
        exact absurd hrest (by simp)
      · have hmem : last ∈ rest := by
          rw [hrest] at h
          cases init with
          | nil =>
            simp only [List.nil_append, List.cons.injEq] at h
            exact absurd h.2 hne
          | cons a b =>
            simp only [List.cons_append, List.cons.injEq] at h
            rw [h.2]
            simp
        exact fieldsBy_ne_nil isSpace rest last hmem hlast hf
    · intro h
      rw [h]
      rfl
  have hiff : parseCommand up (trimSpace text) = .error "empty command" ↔
      trimSpace text = ['.'] := by
    rcases parseCommand_total up (trimSpace text) with ⟨hf, he⟩ | ⟨hf, cmd, hc⟩
    · rw [htp] at hf
      have hr := hfields.1 hf
      rw [hr] at hrest
      exact ⟨fun _ => hrest, fun _ => he⟩
    · rw [htp] at hf
      constructor
      · intro he
        rw [hc] at he
        exact absurd he (by simp)
      · intro ht
        rw [ht] at hrest
        simp only [List.cons.injEq, true_and] at hrest
        exact absurd (hfields.2 hrest.symm) hf
  refine ⟨hiff, ?_⟩
  intro hne
  rcases parseCommand_total up (trimSpace text) with ⟨-, he⟩ | ⟨-, cmd, hc⟩
  · exact absurd (hiff.1 he) hne
  · refine ⟨cmd, hc, ?_⟩
    intro hmodel p num hnum
    have hcne : trimSpace text ≠ [] := by
      rw [hrest]
      simp
    have hstar : hasPrefix (trimSpace text) ['*'] = false := by
      rw [hrest]
      simp [hasPrefix, List.isPrefixOf]
    rw [workerStep_eq_apply, lineEffect_encoded up num text hnum]
    simp only [hcne, hstar, hmodel, hdot, hc, if_false, if_true, Bool.false_eq_true,
      Outcome.bind, Parser.apply]

/-- C19 at the trimmed lines `.` and `.end`. -/
theorem parseCommand_empty_iff_witness :
    (parseCommand id (trimSpace " . ".toList) = .error "empty command" ↔
      trimSpace " . ".toList = ['.']) ∧
    (trimSpace ".end".toList ≠ ['.'] →
      ∃ cmd, parseCommand id (trimSpace ".end".toList) = .ok cmd ∧
        (hasPrefix (trimSpace ".end".toList) ".model".toList = false →
          ∀ (p : Parser) (num : List Char), '|' ∉ num →
            workerStep id p (num ++ '|' :: ".end".toList) =
              .ok ⟨{ p.Netlist with Commands := p.Netlist.Commands ++ [cmd] }, p.errorChan⟩)) :=
  ⟨(parseCommand_empty_iff id " . ".toList (by decide)).1,
   (parseCommand_empty_iff id ".end".toList (by decide)).2⟩

/-- C15. On a line that is neither blank nor a comment and on which the
parser it is routed to (`parseModel`, `parseCommand` or `parseComponent`)
returns an error, the worker step leaves the netlist, with its Title,
Components, Commands and Models, as it was; it sends exactly one diagnostic,
with severity ERROR, the number of the line and the message of the parser; and
the loop goes on with the next line. -/
theorem workerStep_parser_error (up : Char → Char) (p : Parser) (i : Nat)
    (text : List Char) (msg : String) (hmax : i < 2 ^ 63)
    (hne : trimSpace text ≠ []) (hstar : hasPrefix (trimSpace text) ['*'] = false)
    (herr :
      (hasPrefix (trimSpace text) ".model".toList = true ∧
        parseModel (trimSpace text) = .error msg) ∨
      (hasPrefix (trimSpace text) ".model".toList = false ∧
        hasPrefix (trimSpace text) ['.'] = true ∧
        parseCommand up (trimSpace text) = .error msg) ∨
      (hasPrefix (trimSpace text) ".model".toList = false ∧
        hasPrefix (trimSpace text) ['.'] = false ∧
        parseComponent (trimSpace text) = .error msg)) :
    workerStep up p (encodeLine i text) =
      .ok ⟨p.Netlist, p.errorChan ++ [⟨(i : Int), msg, "ERROR"⟩]⟩ ∧
    ∀ rest, workerRun up p (encodeLine i text :: rest) =
      workerRun up ⟨p.Netlist, p.errorChan ++ [⟨(i : Int), msg, "ERROR"⟩]⟩ rest := by
  have hstep : workerStep up p (encodeLine i text) =
      .ok ⟨p.Netlist, p.errorChan ++ [⟨(i : Int), msg, "ERROR"⟩]⟩ := by
    rw [workerStep_eq_apply]
    unfold encodeLine
    rw [lineEffect_encoded up (itoa i) text (itoa_no_bar i), atoi_itoa i hmax]
    rcases herr with ⟨hm, he⟩ | ⟨hm, hd, he⟩ | ⟨hm, hd, he⟩
    · simp only [hne, hstar, hm, he, if_false, if_true, Bool.false_eq_true, Outcome.bind,
        Parser.apply]
    · simp only [hne, hstar, hm, hd, he, if_false, if_true, Bool.false_eq_true, Outcome.bind,
        Parser.apply]
    · simp only [hne, hstar, hm, hd, he, if_false, Bool.false_eq_true, Outcome.bind,
        Parser.apply]
  refine ⟨hstep, ?_⟩
  intro rest
  simp only [workerRun, hstep, Outcome.bind]

set_option maxRecDepth 100000 in
/-- C15 at source line 5 with the text `R1 a` (a component line without its
second node), followed by the line `.end`. -/
theorem workerStep_parser_error_witness :
    workerStep id NewParser (encodeLine 5 "R1 a".toList) =
      .ok ⟨NewParser.Netlist,
        NewParser.errorChan ++ [⟨(5 : Nat), "invalid component syntax", "ERROR"⟩]⟩ ∧
    workerRun id NewParser [encodeLine 5 "R1 a".toList, encodeLine 6 ".end".toList] =
      workerRun id ⟨NewParser.Netlist,
        NewParser.errorChan ++ [⟨(5 : Nat), "invalid component syntax", "ERROR"⟩]⟩
        [encodeLine 6 ".end".toList] :=
  ⟨(workerStep_parser_error id NewParser 5 "R1 a".toList "invalid component syntax" (by decide)
      (by decide) (by decide) (Or.inr (Or.inr ⟨by decide, by decide, by decide⟩))).1,
   (workerStep_parser_error id NewParser 5 "R1 a".toList "invalid component syntax" (by decide)
      (by decide) (by decide) (Or.inr (Or.inr ⟨by decide, by decide, by decide⟩))).2 _⟩

/-! ### No index or slice is out of range -/

theorem split_two (sep : Char) (s : List Char) (h : sep ∈ s) :
    ∃ a b rest, split sep s = a :: b :: rest := by
  induction s with
  | nil => simp at h
  | cons c t ih =>
    by_cases hc : c = sep
    · cases t with
      | nil => exact ⟨[], [], [], by simp [split, hc]⟩
      | cons d u =>
        by_cases hd : d = sep
        · exact ⟨[], [], split sep u, by simp [split, hc, hd]⟩
        · cases hs : split sep u with
          | nil => exact ⟨[], [d], [], by simp [split, hc, hd, hs]⟩
          | cons w ws => exact ⟨[], d :: w, ws, by simp [split, hc, hd, hs]⟩
    · have ht : sep ∈ t := by
        rcases List.mem_cons.1 h with h | h
        · exact absurd h.symm hc
        · exact h
      obtain ⟨a, b, rest, hab⟩ := ih ht
      exact ⟨c :: a, b, rest, by simp [split, hc, hab]⟩

/-- The parameter loop of `parseModel` never indexes out of range: `kv[1]`
exists whenever the token contains `=`. -/
theorem modelParams_total (params : List (List Char)) :
    ∀ ps : List (List Char × F64), ∃ r, modelParams params ps = .ok r := by
  induction params with
  | nil => exact fun ps => ⟨ps, rfl⟩
  | cons param rest ih =>
    intro ps
    by_cases hmem : '=' ∈ param
    · obtain ⟨a, b, more, hab⟩ := split_two '=' param hmem
      cases hv : parseValue b with
      | ok val =>
        obtain ⟨r, hr⟩ := ih (GoMap.set ps a val)
        exact ⟨r, by simp only [modelParams, if_pos hmem, hab, Outcome.index, List.get?,
          Outcome.bind, hv, hr]⟩
      | error e =>
        obtain ⟨r, hr⟩ := ih ps
        exact ⟨r, by simp only [modelParams, if_pos hmem, hab, Outcome.index, List.get?,
          Outcome.bind, hv, hr]⟩
    · obtain ⟨r, hr⟩ := ih ps
      exact ⟨r, by simp only [modelParams, if_neg hmem, hr]⟩

theorem parseComponent_total (s : List Char) :
    (∃ c, parseComponent s = .ok c) ∨ ∃ e, parseComponent s = .error e := by
  cases hf : componentRe.findStringSubmatch 6 s with
  | none => exact Or.inr ⟨_, parseComponent_nomatch s hf⟩
  | some found =>
    obtain ⟨c0, w, sp1, t2, sp2, t3, tail, g4, g5, g6, -, hfound, -⟩ :=
      componentRe_shape s found hf
    subst hfound
    rw [parseComponent_found s _ _ _ _ _ _ _ hf]
    have hup : ∃ ct, upperFirstByte (c0 :: w) = .ok ct := by
      by_cases hlt : c0.toNat < 128
      · exact ⟨[toUpperRune id c0], by simp only [upperFirstByte, if_pos hlt]⟩
      · exact ⟨[Char.ofNat 0xFFFD], by simp only [upperFirstByte, if_neg hlt]⟩
    obtain ⟨ct, hct⟩ := hup
    rw [hct]
    simp only [Outcome.bind]
    by_cases h1 : ct = ['R'] ∨ ct = ['C'] ∨ ct = ['L']
    · rw [if_pos h1]
      cases parseValue g4 with
      | ok v => exact Or.inl ⟨_, rfl⟩
      | error e => exact Or.inr ⟨_, rfl⟩
    · rw [if_neg h1]
      by_cases h2 : ct = ['M']
      · rw [if_pos h2]
        exact Or.inl ⟨_, rfl⟩
      · rw [if_neg h2]
        exact Or.inr ⟨_, rfl⟩

theorem parseModel_total (s : List Char) :
    (∃ m, parseModel s = .ok m) ∨ ∃ e, parseModel s = .error e := by
  cases hf : modelRe.findStringSubmatch 3 s with
  | none => exact Or.inr ⟨"invalid model syntax", by simp only [parseModel, hf]⟩
  | some found =>
    obtain ⟨m0, g1, g2, rfl⟩ := modelRe_shape s found hf
    obtain ⟨r, hr⟩ := modelParams_total (fields []) []
    exact Or.inl ⟨⟨g1, g2, r⟩,
      by simp only [parseModel, hf, Outcome.index, List.get?, Outcome.bind, hr]⟩

/-- C20. The per-line pipeline is total: on every string each of
`parseValue`, `parseComponent`, `parseCommand` and `parseModel` returns a
record or an error, never the panic of an index or slice out of range
(`matches[1][0:1]`, `matches[2..6]`, `kv[0]`, `kv[1]`); the two option loops
succeed on every token list; and for a line that the reader has encoded the
worker finds `parts[0]` and `parts[1]` and completes its step. -/
theorem pipeline_total (up : Char → Char) (s : List Char) :
    ((∃ v, parseValue s = .ok v) ∨ ∃ e, parseValue s = .error e) ∧
    ((∃ c, parseComponent s = .ok c) ∨ ∃ e, parseComponent s = .error e) ∧
    ((∃ c, parseCommand up s = .ok c) ∨ ∃ e, parseCommand up s = .error e) ∧
    ((∃ m, parseModel s = .ok m) ∨ ∃ e, parseModel s = .error e) ∧
    (∀ (rest : List (List Char)) (opts : List (List Char × List Char)),
      ∃ r, commandOptions rest opts = .ok r) ∧
    (∀ (params : List (List Char)) (ps : List (List Char × F64)),
      ∃ r, modelParams params ps = .ok r) ∧
    (∀ (i : Nat) (p : Parser),
      Outcome.index (splitN2 '|' (encodeLine i s)) 0 = .ok (itoa i) ∧
      Outcome.index (splitN2 '|' (encodeLine i s)) 1 = .ok s ∧
      ∃ p1, workerStep up p (encodeLine i s) = .ok p1) := by
  refine ⟨?_, parseComponent_total s, ?_, parseModel_total s, ?_, modelParams_total, ?_⟩
  · cases parseValue s with
    | ok v => exact Or.inl ⟨v, rfl⟩
    | error e => exact Or.inr ⟨e, rfl⟩
  · rcases parseCommand_total up s with ⟨-, he⟩ | ⟨-, cmd, hc⟩
    · exact Or.inr ⟨_, he⟩
    · exact Or.inl ⟨cmd, hc⟩
  · intro rest opts
    obtain ⟨r, hr, -⟩ := commandOptions_spec rest opts
    exact ⟨r, hr⟩
  · intro i p
    have hsplit := splitN2_append '|' (itoa i) s (itoa_no_bar i)
    refine ⟨by unfold encodeLine; rw [hsplit]; rfl, by unfold encodeLine; rw [hsplit]; rfl, ?_⟩
    rw [workerStep_eq_apply]
    unfold encodeLine
    rw [lineEffect_encoded up (itoa i) s (itoa_no_bar i)]
    split
    · exact ⟨_, rfl⟩
    · split
      · exact ⟨_, rfl⟩
      · split
        · rcases parseModel_total (trimSpace s) with ⟨m, h⟩ | ⟨e, h⟩ <;> rw [h] <;> exact ⟨_, rfl⟩
        · split
          · rcases parseCommand_total up (trimSpace s) with ⟨-, h⟩ | ⟨-, c, h⟩ <;> rw [h] <;>
              exact ⟨_, rfl⟩
          · rcases parseComponent_total (trimSpace s) with ⟨c, h⟩ | ⟨e, h⟩ <;> rw [h] <;>
              exact ⟨_, rfl⟩

/-! ### The worker loop -/

theorem mem_split_first (sep : Char) (s : List Char) (h : sep ∈ s) :
    ∃ a b, sep ∉ a ∧ s = a ++ sep :: b := by
  induction s with
  | nil => simp at h
  | cons c t ih =>
    by_cases hc : c = sep
    · exact ⟨[], t, by simp, by simp [hc]⟩
    · have ht : sep ∈ t := by
        rcases List.mem_cons.1 h with h | h
        · exact absurd h.symm hc
        · exact h
      obtain ⟨a, b, ha, hab⟩ := ih ht
      refine ⟨c :: a, b, ?_, by simp [hab]⟩
      intro hm
      rcases List.mem_cons.1 hm with h | h
      · exact hc h.symm
      · exact ha h

/-- On a line that contains the separator `|` the contribution is defined:
the step does not panic. -/
theorem lineEffect_total (up : Char → Char) (line : List Char) (h : '|' ∈ line) :
    ∃ e, lineEffect up line = .ok e := by
  obtain ⟨num, text, hnum, rfl⟩ := mem_split_first '|' line h
  rw [lineEffect_encoded up num text hnum]
  split
  · exact ⟨_, rfl⟩
  · split
    · exact ⟨_, rfl⟩
    · split
      · rcases parseModel_total (trimSpace text) with ⟨m, h⟩ | ⟨e, h⟩ <;> rw [h] <;>
          exact ⟨_, rfl⟩
      · split
        · rcases parseCommand_total up (trimSpace text) with ⟨-, h⟩ | ⟨-, c, h⟩ <;> rw [h] <;>
            exact ⟨_, rfl⟩
        · rcases parseComponent_total (trimSpace text) with ⟨c, h⟩ | ⟨e, h⟩ <;> rw [h] <;>
            exact ⟨_, rfl⟩

theorem lineEffectD_of_ok (up : Char → Char) (line : List Char) (e : LineEffect)
    (h : lineEffect up line = .ok e) : lineEffectD up line = e := by
  simp only [lineEffectD, h]

/-- The loop of one worker applies the contributions of the lines in the
order in which it receives them. -/
theorem workerRun_eq_foldl (up : Char → Char) (lines : List (List Char)) :
    ∀ p : Parser, (∀ l ∈ lines, ∃ e, lineEffect up l = .ok e) →
      workerRun up p lines = .ok ((lines.map (lineEffectD up)).foldl Parser.apply p) := by
  induction lines with
  | nil => exact fun p _ => rfl
  | cons l rest ih =>
    intro p h
    obtain ⟨e, he⟩ := h l (List.mem_cons_self _ _)
    simp only [workerRun, workerStep_eq_apply, he, Outcome.bind, List.map_cons, List.foldl_cons,
      lineEffectD_of_ok up l e he]
    exact ih (p.apply e) (fun l1 hl1 => h l1 (List.mem_cons_of_mem _ hl1))

theorem workerRun_ok_lines (up : Char → Char) (lines : List (List Char)) :
    ∀ p pf : Parser, workerRun up p lines = .ok pf → ∀ l ∈ lines, ∃ e, lineEffect up l = .ok e := by
  induction lines with
  | nil => exact fun p pf _ l hl => absurd hl (by simp)
  | cons l rest ih =>
    intro p pf h l1 hl1
    simp only [workerRun, workerStep_eq_apply] at h
    cases he : lineEffect up l with
    | error e =>
      rw [he] at h
      exact absurd h (by simp [Outcome.bind])
    | panic =>
      rw [he] at h
      exact absurd h (by simp [Outcome.bind])
    | ok e =>
      rw [he] at h
      simp only [Outcome.bind] at h
      rcases List.mem_cons.1 hl1 with rfl | hl1
      · exact ⟨e, he⟩
      · exact ih _ pf h l1 hl1

/-! ### The title -/

theorem apply_title_set (p : Parser) (e : LineEffect) (h : p.Netlist.Title ≠ []) :
    (p.apply e).Netlist.Title = p.Netlist.Title := by
  cases e <;> simp [Parser.apply, h]

theorem apply_title_other (p : Parser) (e : LineEffect) (h : ∀ t, e ≠ .title t) :
    (p.apply e).Netlist.Title = p.Netlist.Title := by
  cases e with
  | title t => exact absurd rfl (h t)
  | skip => rfl
  | model m => rfl
  | command c => rfl
  | component c => rfl
  | diagnostic d => rfl

theorem foldl_apply_title_set (es : List LineEffect) :
    ∀ p : Parser, p.Netlist.Title ≠ [] → (es.foldl Parser.apply p).Netlist.Title = p.Netlist.Title := by
  induction es with
  | nil => exact fun p _ => rfl
  | cons e rest ih =>
    intro p h
    have h1 := apply_title_set p e h
    simp only [List.foldl_cons]
    rw [ih (p.apply e) (by rw [h1]; exact h), h1]

theorem foldl_apply_title_other (es : List LineEffect) :
    ∀ p : Parser, (∀ e ∈ es, ∀ t, e ≠ .title t) →
      (es.foldl Parser.apply p).Netlist.Title = p.Netlist.Title := by
  induction es with
  | nil => exact fun p _ => rfl
  | cons e rest ih =>
    intro p h
    simp only [List.foldl_cons]
    rw [ih (p.apply e) (fun e1 he1 => h e1 (List.mem_cons_of_mem _ he1)),
      apply_title_other p e (h e (List.mem_cons_self _ _))]

/-- The title that a comment line proposes is not empty. -/
theorem title_of_comment_ne_nil (text : List Char)
    (hstar : hasPrefix (trimSpace text) ['*'] = true) :
    trimPrefix (trimSpace text) ['*', ' '] ≠ [] := by
  obtain ⟨rest, hrest⟩ := hasPrefix_singleton _ _ hstar
  unfold trimPrefix
  by_cases hp : ['*', ' '].isPrefixOf (trimSpace text) = true
  · rw [if_pos hp]
    rw [hrest] at hp ⊢
    cases rest with
    | nil => simp [List.isPrefixOf] at hp
    | cons a b =>
      simp only [List.isPrefixOf, Bool.and_eq_true, beq_iff_eq, true_and] at hp
      cases b with
      | nil =>
        exfalso
        rcases trimSpace_last text with h | ⟨init, last, h, hlast⟩
        · rw [h] at hrest
          exact absurd hrest (by simp)
        · rw [hrest] at h
          have hl : last = a := by
            cases init with
            | nil => simp at h
            | cons x y =>
              cases y with
              | nil =>
                simp only [List.cons_append, List.nil_append, List.cons.injEq, and_true] at h
                exact h.2.symm
              | cons z u =>
                have := congrArg List.length h
                simp at this
          rw [hl, ← hp.1] at hlast
          exact absurd hlast (by decide)
      | cons c d => simp
  · rw [if_neg hp, hrest]
    simp

theorem lineEffect_comment (up : Char → Char) (num text : List Char) (hnum : '|' ∉ num)
    (hstar : hasPrefix (trimSpace text) ['*'] = true) :
    lineEffect up (num ++ '|' :: text) = .ok (.title (trimPrefix (trimSpace text) ['*', ' '])) := by
  obtain ⟨rest, hrest⟩ := hasPrefix_singleton _ _ hstar
  have hne : trimSpace text ≠ [] := by
    rw [hrest]
    simp
  rw [lineEffect_encoded up num text hnum]
  simp only [hne, hstar, if_false, if_true]

/-- C14. When the lines are processed in source order, the title is decided
by the first comment line: the step for a comment line completes and leaves a
title that is not empty; once the title is not empty the step for any further
line, comment or not, leaves it as it is; and so after a whole run from the
empty parser the title is the one that the first comment line gave. -/
theorem title_first_wins (up : Char → Char) (num text : List Char) (hnum : '|' ∉ num)
    (hstar : hasPrefix (trimSpace text) ['*'] = true) :
    (∀ p : Parser, ∃ p1, workerStep up p (num ++ '|' :: text) = .ok p1 ∧
      p1.Netlist.Title ≠ [] ∧
      (p.Netlist.Title = [] → p1.Netlist.Title = trimPrefix (trimSpace text) ['*', ' '])) ∧
    (∀ (p : Parser) (line : List Char), p.Netlist.Title ≠ [] → '|' ∈ line →
      ∃ p1, workerStep up p line = .ok p1 ∧ p1.Netlist.Title = p.Netlist.Title) ∧
    (∀ pre post : List (List Char),
      (∀ l ∈ pre, '|' ∈ l ∧ ∀ t, lineEffect up l ≠ .ok (.title t)) → (∀ l ∈ post, '|' ∈ l) →
      ∃ pf, workerRun up NewParser (pre ++ (num ++ '|' :: text) :: post) = .ok pf ∧
        pf.Netlist.Title = trimPrefix (trimSpace text) ['*', ' '] ∧ pf.Netlist.Title ≠ []) := by
  have hne := title_of_comment_ne_nil text hstar
  have heff := lineEffect_comment up num text hnum hstar
  refine ⟨?_, ?_, ?_⟩
  · intro p
    refine ⟨p.apply (.title (trimPrefix (trimSpace text) ['*', ' '])), ?_, ?_, ?_⟩
    · rw [workerStep_eq_apply, heff]
      rfl
    · by_cases ht : p.Netlist.Title = []
      · simp only [Parser.apply, ht, if_true]
        exact hne
      · simp only [Parser.apply, ht, if_false]
        exact ht
    · intro ht
      simp only [Parser.apply, ht, if_true]
  · intro p line ht hbar
    obtain ⟨e, he⟩ := lineEffect_total up line hbar
    refine ⟨p.apply e, ?_, apply_title_set p e ht⟩
    rw [workerStep_eq_apply, he]
    rfl
  · intro pre post hpre hpost
    have hall : ∀ l ∈ pre ++ (num ++ '|' :: text) :: post, ∃ e, lineEffect up l = .ok e := by
      intro l hl
      rcases List.mem_append.1 hl with h | h
      · exact lineEffect_total up l (hpre l h).1
      · rcases List.mem_cons.1 h with rfl | h
        · exact ⟨_, heff⟩
        · exact lineEffect_total up l (hpost l h)
    refine ⟨_, workerRun_eq_foldl up _ NewParser hall, ?_⟩
    have hpre1 : ∀ e ∈ pre.map (lineEffectD up), ∀ t, e ≠ .title t := by
      intro e he t hcontra
      obtain ⟨l, hl, rfl⟩ := List.mem_map.1 he
      obtain ⟨e1, he1⟩ := lineEffect_total up l (hpre l hl).1
      rw [lineEffectD_of_ok up l e1 he1] at hcontra
      rw [hcontra] at he1
      exact (hpre l hl).2 t he1
    have h1 := foldl_apply_title_other (pre.map (lineEffectD up)) NewParser hpre1
    have htitle : (((pre.map (lineEffectD up)).foldl Parser.apply NewParser).apply
        (.title (trimPrefix (trimSpace text) ['*', ' ']))).Netlist.Title =
          trimPrefix (trimSpace text) ['*', ' '] := by
      have h0 : ((pre.map (lineEffectD up)).foldl Parser.apply NewParser).Netlist.Title = [] := by
        rw [h1]
        rfl
      simp only [Parser.apply, h0, if_true]
    simp only [List.map_append, List.map_cons, List.foldl_append, List.foldl_cons,
      lineEffectD_of_ok up _ _ heff]
    rw [foldl_apply_title_set _ _ (by rw [htitle]; exact hne), htitle]
    exact ⟨rfl, hne⟩

set_option maxRecDepth 100000 in
/-- C14 on the lines `R1 a b 1`, `* first`, `*second`, `.end`: the title is
`first`. -/
theorem title_first_wins_witness :
    ∃ pf, workerRun id NewParser (["1|R1 a b 1".toList] ++ ("2".toList ++ '|' :: "* first".toList) ::
        ["3|*second".toList, "4|.end".toList]) = .ok pf ∧
      pf.Netlist.Title = trimPrefix (trimSpace "* first".toList) ['*', ' '] ∧
      pf.Netlist.Title ≠ [] :=
  (title_first_wins id "2".toList "* first".toList (by decide) (by decide)).2.2
    ["1|R1 a b 1".toList] ["3|*second".toList, "4|.end".toList]
    (by
      intro l hl
      simp only [List.mem_singleton] at hl
      subst hl
      refine ⟨by decide, ?_⟩
      intro t h
      have e : lineEffect id "1|R1 a b 1".toList =
          .ok (.component ⟨1, ['R'], [['a'], ['b']], [],
            [("value".toList, ⟨false, 1023, 0⟩)]⟩) := by decide
      rw [e] at h
      exact absurd h (by simp))
    (by decide)

/-! ### The order in which the steps are committed

With several workers the steps of the lines are committed to the shared state
in an order that depends on the scheduling, any order when there are enough
workers; with one worker they are committed in source order.  A run of the
worker pool is therefore `workerRun` on a permutation of the lines. -/

theorem foldl_apply_components (es : List LineEffect) :
    ∀ p : Parser, (es.foldl Parser.apply p).Netlist.Components =
      p.Netlist.Components ++ es.filterMap LineEffect.toComponent := by
  induction es with
  | nil => simp
  | cons e rest ih =>
    intro p
    simp only [List.foldl_cons]
    rw [ih (p.apply e)]
    cases e with
    | title t => by_cases ht : p.Netlist.Title = [] <;> simp [Parser.apply, ht, LineEffect.toComponent]
    | skip => simp [Parser.apply, LineEffect.toComponent]
    | model m => simp [Parser.apply, LineEffect.toComponent]
    | command c => simp [Parser.apply, LineEffect.toComponent]
    | component c => simp [Parser.apply, LineEffect.toComponent]
    | diagnostic d => simp [Parser.apply, LineEffect.toComponent]

theorem foldl_apply_commands (es : List LineEffect) :
    ∀ p : Parser, (es.foldl Parser.apply p).Netlist.Commands =
      p.Netlist.Commands ++ es.filterMap LineEffect.toCommand := by
  induction es with
  | nil => simp
  | cons e rest ih =>
    intro p
    simp only [List.foldl_cons]
    rw [ih (p.apply e)]
    cases e with
    | title t => by_cases ht : p.Netlist.Title = [] <;> simp [Parser.apply, ht, LineEffect.toCommand]
    | skip => simp [Parser.apply, LineEffect.toCommand]
    | model m => simp [Parser.apply, LineEffect.toCommand]
    | command c => simp [Parser.apply, LineEffect.toCommand]
    | component c => simp [Parser.apply, LineEffect.toCommand]
    | diagnostic d => simp [Parser.apply, LineEffect.toCommand]

theorem foldl_apply_errorChan (es : List LineEffect) :
    ∀ p : Parser, (es.foldl Parser.apply p).errorChan =
      p.errorChan ++ es.filterMap LineEffect.toDiagnostic := by
  induction es with
  | nil => simp
  | cons e rest ih =>
    intro p
    simp only [List.foldl_cons]
    rw [ih (p.apply e)]
    cases e with
    | title t => by_cases ht : p.Netlist.Title = [] <;> simp [Parser.apply, ht, LineEffect.toDiagnostic]
    | skip => simp [Parser.apply, LineEffect.toDiagnostic]
    | model m => simp [Parser.apply, LineEffect.toDiagnostic]
    | command c => simp [Parser.apply, LineEffect.toDiagnostic]
    | component c => simp [Parser.apply, LineEffect.toDiagnostic]
    | diagnostic d => simp [Parser.apply, LineEffect.toDiagnostic]

/-- The models after the contributions, when no two of them define the same
name: a name is bound to the model of the card that defines it, and otherwise
as before. -/
theorem foldl_apply_models (es : List LineEffect) :
    ∀ (p : Parser) (k : List Char) (m : Model),
      ((es.filterMap LineEffect.toModel).map (fun m => m.Name)).Nodup →
      (GoMap.get (es.foldl Parser.apply p).Netlist.Models k = some m ↔
        (m ∈ es.filterMap LineEffect.toModel ∧ m.Name = k) ∨
        ((∀ m1 ∈ es.filterMap LineEffect.toModel, m1.Name ≠ k) ∧
          GoMap.get p.Netlist.Models k = some m)) := by
  induction es with
  | nil => simp
  | cons e rest ih =>
    intro p k m hnd
    simp only [List.foldl_cons]
    cases e with
    | title t =>
      have hm : (p.apply (.title t)).Netlist.Models = p.Netlist.Models := by
        by_cases ht : p.Netlist.Title = [] <;> simp [Parser.apply, ht]
      simp only [List.filterMap_cons, LineEffect.toModel] at hnd ⊢
      rw [ih _ k m hnd, hm]
    | skip =>
      simp only [List.filterMap_cons, LineEffect.toModel] at hnd ⊢
      exact ih _ k m hnd
    | command c =>
      simp only [List.filterMap_cons, LineEffect.toModel] at hnd ⊢
      exact ih _ k m hnd
    | component c =>
      simp only [List.filterMap_cons, LineEffect.toModel] at hnd ⊢
      exact ih _ k m hnd
    | diagnostic d =>
      simp only [List.filterMap_cons, LineEffect.toModel] at hnd ⊢
      exact ih _ k m hnd
    | model m0 =>
      simp only [List.filterMap_cons, LineEffect.toModel, List.map_cons, List.nodup_cons] at hnd ⊢
      obtain ⟨hnot, hnd1⟩ := hnd
      rw [ih _ k m hnd1]
      simp only [Parser.apply, GoMap.get_set, List.mem_cons]
      by_cases hk : m0.Name = k
      · simp only [hk, if_true, Option.some.injEq]
        subst hk
        have hall : ∀ m1 ∈ rest.filterMap LineEffect.toModel, m1.Name ≠ m0.Name := by
          intro m1 hm1 heq
          exact hnot (List.mem_map.2 ⟨m1, hm1, heq⟩)
        constructor
        · rintro (⟨hm, hmk⟩ | ⟨-, hm⟩)
          · exact absurd hmk (hall m hm)
          · exact Or.inl ⟨Or.inl hm.symm, by rw [← hm]⟩
        · rintro (⟨hm | hm, hmk⟩ | ⟨hno, -⟩)
          · exact Or.inr ⟨hall, hm.symm⟩
          · exact absurd hmk (hall m hm)
          · exact absurd rfl (hno m0 (Or.inl rfl))
      · simp only [hk, if_false]
        constructor
        · rintro (⟨hm, hmk⟩ | ⟨hno, hg⟩)
          · exact Or.inl ⟨Or.inr hm, hmk⟩
          · refine Or.inr ⟨?_, hg⟩
            intro m1 hm1
            rcases hm1 with rfl | hm1
            · exact hk
            · exact hno m1 hm1
        · rintro (⟨hm | hm, hmk⟩ | ⟨hno, hg⟩)
          · rw [hm] at hmk
            exact absurd hmk hk
          · exact Or.inl ⟨hm, hmk⟩
          · exact Or.inr ⟨fun m1 hm1 => hno m1 (Or.inr hm1), hg⟩

set_option maxRecDepth 100000 in
/-- The Models depend on the order in which the steps are committed when a
name is defined twice (the map is written with last write wins): two model
cards of the same name, committed in source order and in the other order,
leave different Models. -/
theorem workerRun_order_changes_models :
    ["1|.model a X".toList, "2|.model a Y".toList].Perm
      ["2|.model a Y".toList, "1|.model a X".toList] ∧
    workerRun id NewParser ["1|.model a X".toList, "2|.model a Y".toList] =
      .ok ⟨⟨[], [], [], [(['a'], ⟨['a'], ['Y'], []⟩)]⟩, []⟩ ∧
    workerRun id NewParser ["2|.model a Y".toList, "1|.model a X".toList] =
      .ok ⟨⟨[], [], [], [(['a'], ⟨['a'], ['X'], []⟩)]⟩, []⟩ ∧
    ¬ ([(['a'], (⟨['a'], ['Y'], []⟩ : Model))].Perm [(['a'], ⟨['a'], ['X'], []⟩)]) := by
  refine ⟨List.Perm.swap _ _ _, by decide, by decide, ?_⟩
  intro h
  have := List.perm_singleton.1 h
  exact absurd this (by decide)

/-- Whatever the order in which the steps of the lines are committed, the
worker loop completes when the loop in source order does, with the same
multiset of Components, the same multiset of Commands and the same multiset of
diagnostics sent on `errorChan`; and when no two model cards define the same
name, with the same Models, name by name. -/
theorem workerRun_perm (up : Char → Char) (p pf : Parser) (lines lines1 : List (List Char))
    (hperm : lines.Perm lines1) (hrun : workerRun up p lines = .ok pf) :
    ∃ pf1, workerRun up p lines1 = .ok pf1 ∧
      pf1.Netlist.Components.Perm pf.Netlist.Components ∧
      pf1.Netlist.Commands.Perm pf.Netlist.Commands ∧
      pf1.errorChan.Perm pf.errorChan ∧
      ((modelNames up lines).Nodup →
        ∀ k, GoMap.get pf1.Netlist.Models k = GoMap.get pf.Netlist.Models k) := by
  have hall := workerRun_ok_lines up lines p pf hrun
  have hall1 : ∀ l ∈ lines1, ∃ e, lineEffect up l = .ok e :=
    fun l hl => hall l (hperm.mem_iff.2 hl)
  have hpf : pf = (lines.map (lineEffectD up)).foldl Parser.apply p := by
    have h := workerRun_eq_foldl up lines p hall
    rw [hrun] at h
    simpa using h
  have hes : (lines1.map (lineEffectD up)).Perm (lines.map (lineEffectD up)) :=
    (hperm.map _).symm
  refine ⟨_, workerRun_eq_foldl up lines1 p hall1, ?_, ?_, ?_, ?_⟩
  · rw [hpf, foldl_apply_components, foldl_apply_components]
    exact (hes.filterMap _).append_left _
  · rw [hpf, foldl_apply_commands, foldl_apply_commands]
    exact (hes.filterMap _).append_left _
  · rw [hpf, foldl_apply_errorChan, foldl_apply_errorChan]
    exact (hes.filterMap _).append_left _
  · intro hnd k
    have hms : ((lines1.map (lineEffectD up)).filterMap LineEffect.toModel).Perm
        ((lines.map (lineEffectD up)).filterMap LineEffect.toModel) := hes.filterMap _
    have hnd1 : (((lines1.map (lineEffectD up)).filterMap LineEffect.toModel).map
        (fun m => m.Name)).Nodup := (hms.map _).nodup_iff.2 hnd
    have key : ∀ m, GoMap.get ((lines1.map (lineEffectD up)).foldl Parser.apply p).Netlist.Models k
        = some m ↔ GoMap.get pf.Netlist.Models k = some m := by
      intro m
      rw [hpf, foldl_apply_models _ p k m hnd1, foldl_apply_models _ p k m hnd]
      constructor
      · rintro (⟨hm, hmk⟩ | ⟨hno, hg⟩)
        · exact Or.inl ⟨hms.mem_iff.1 hm, hmk⟩
        · exact Or.inr ⟨fun m1 hm1 => hno m1 (hms.mem_iff.2 hm1), hg⟩
      · rintro (⟨hm, hmk⟩ | ⟨hno, hg⟩)
        · exact Or.inl ⟨hms.mem_iff.2 hm, hmk⟩
        · exact Or.inr ⟨fun m1 hm1 => hno m1 (hms.mem_iff.1 hm1), hg⟩
    cases h1 : GoMap.get ((lines1.map (lineEffectD up)).foldl Parser.apply p).Netlist.Models k with
    | some m => exact ((key m).1 h1).symm
    | none =>
      cases h2 : GoMap.get pf.Netlist.Models k with
      | none => rfl
      | some m =>
        have := (key m).2 h2
        rw [h1] at this
        exact absurd this (by simp)

set_option maxRecDepth 100000 in
/-- The worker loop on the lines `.model a X`, `R1 n1 n2 1` and `Q1 n1 n2`
committed in source order and with the last line first. -/
theorem workerRun_perm_example :
    ∃ pf1, workerRun id NewParser
        ["3|Q1 n1 n2".toList, "1|.model a X".toList, "2|R1 n1 n2 1".toList] = .ok pf1 ∧
      pf1.Netlist.Components.Perm
        [⟨2, ['R'], ["n1".toList, "n2".toList], [], [("value".toList, ⟨false, 1023, 0⟩)]⟩] ∧
      pf1.Netlist.Commands.Perm [] ∧
      pf1.errorChan.Perm [⟨3, "unsupported component type: Q", "ERROR"⟩] ∧
      ∀ k, GoMap.get pf1.Netlist.Models k =
        GoMap.get [(['a'], (⟨['a'], ['X'], []⟩ : Model))] k :=
  match workerRun_perm id NewParser
    ⟨⟨[], [⟨2, ['R'], ["n1".toList, "n2".toList], [], [("value".toList, ⟨false, 1023, 0⟩)]⟩],
      [], [(['a'], ⟨['a'], ['X'], []⟩)]⟩, [⟨3, "unsupported component type: Q", "ERROR"⟩]⟩
    ["1|.model a X".toList, "2|R1 n1 n2 1".toList, "3|Q1 n1 n2".toList]
    ["3|Q1 n1 n2".toList, "1|.model a X".toList, "2|R1 n1 n2 1".toList]
    (by decide) (by decide) with
  | ⟨pf1, h1, h2, h3, h4, h5⟩ => ⟨pf1, h1, h2, h3, h4, h5 (by decide)⟩

/-! ### The diagnostics that `ParseFile` returns -/

/-- When `ParseFile` returns, `Errors` is a prefix of the diagnostics that
the workers have sent, namely those that the collecting goroutine has
appended by then; nothing in `ParseFile` makes it the whole list. -/
theorem ParseFile_errors_prefix (up : Char → Char) (drained : Nat) (texts : List (List Char))
    (r : ParseResult) (h : ParseFile up drained texts = .ok r) :
    ∃ p1, workerRun up NewParser (readerLines 0 texts) = .ok p1 ∧ r.Netlist = p1.Netlist ∧
      r.Errors = p1.errorChan.take (max drained (p1.errorChan.length - 101)) := by
  cases h1 : workerRun up NewParser (readerLines 0 texts) with
  | error e => simp [ParseFile, h1, Outcome.bind] at h
  | panic => simp [ParseFile, h1, Outcome.bind] at h
  | ok p1 =>
    rw [ParseFile_of_run up drained texts p1 h1] at h
    rcases (semanticCheck_closed p1).2 with h2 | h2
    · rw [h2] at h
      simp [Outcome.bind] at h
    · rw [h2] at h
      simp only [Outcome.bind, Outcome.ok.injEq] at h
      exact ⟨p1, rfl, by rw [← h], by rw [← h]⟩

set_option maxRecDepth 100000 in
/-- C16, the code at the failing input.  On the file `Q1 a b`, `R1 a`, `.`,
`C1 a b 1x` the workers send four diagnostics.  `ParseFile` does not wait for
the goroutine that moves them to `Errors`: when it returns, `Errors` is empty
if that goroutine has not run yet, holds two diagnostics if it has appended
two, and all four only if it has finished. -/
theorem ParseFile_loses_diagnostics :
    workerRun id NewParser
        (readerLines 0 ["Q1 a b".toList, "R1 a".toList, ".".toList, "C1 a b 1x".toList]) =
      .ok ⟨⟨[], [], [], []⟩,
        [⟨1, "unsupported component type: Q", "ERROR"⟩,
         ⟨2, "invalid component syntax", "ERROR"⟩,
         ⟨3, "empty command", "ERROR"⟩,
         ⟨4, "unknown unit: x", "ERROR"⟩]⟩ ∧
    ParseFile id 0 ["Q1 a b".toList, "R1 a".toList, ".".toList, "C1 a b 1x".toList] =
      .ok ⟨⟨[], [], [], []⟩, []⟩ ∧
    ParseFile id 2 ["Q1 a b".toList, "R1 a".toList, ".".toList, "C1 a b 1x".toList] =
      .ok ⟨⟨[], [], [], []⟩,
        [⟨1, "unsupported component type: Q", "ERROR"⟩,
         ⟨2, "invalid component syntax", "ERROR"⟩]⟩ ∧
    ParseFile id 4 ["Q1 a b".toList, "R1 a".toList, ".".toList, "C1 a b 1x".toList] =
      .ok ⟨⟨[], [], [], []⟩,
        [⟨1, "unsupported component type: Q", "ERROR"⟩,
         ⟨2, "invalid component syntax", "ERROR"⟩,
         ⟨3, "empty command", "ERROR"⟩,
         ⟨4, "unknown unit: x", "ERROR"⟩]⟩ := by
  refine ⟨by decide, by decide, by decide, by decide⟩

end SpiceParser
